import Mathlib

/-!
# xtcat: concatenation of xtc trajectory files

A shallow embedding of `src/main.c` and the properties of it that the
specification states.

Modelling conventions.

* A byte (`unsigned char`) is a `Fin 256`; a file's content is a `List Byte`.
* A `FILE *` opened for reading is a pair of the file's content and a read
  cursor.  `fseek` to an absolute offset sets the cursor (offsets are taken
  in the range of `long`, where `fseek` succeeds), `fread` delivers the bytes
  that are available from the cursor on, at most the number asked for.
* `uint32_t` values are natural numbers reduced `% 2 ^ 32`; `long` is the
  64-bit signed integer of LP64, an `Int`; `size_t` is 64 bits wide.
* The file system maps a path to the content of the file that can be opened
  for reading there.  Whether a path can be opened for writing and whether
  `calloc` delivers a buffer of a given size are answers of the environment.
* A write to the output stream succeeds; `fflush` and `fclose` append the
  pending bytes to the file.  A file that is both the output and an input is
  read with the content the output has at that moment.
* `fopen` of a null path fails.
* The messages written to the standard streams are not part of the model.
* Storing past the end of the 100-entry array `input_filenames` is undefined
  behaviour: the parser then has no result (`none`).
-/

namespace Xtcat

/-! ## Bytes and read handles -/

/-- One `unsigned char`. -/
abbrev Byte := Fin 256

/-- A stream opened with `fopen(path, "rb")`: the content and the cursor. -/
structure FILE where
  data : List Byte
  pos : Nat

/-- The call `fseek(file, off, SEEK_SET)`. -/
def fseek_set (file : FILE) (off : Nat) : FILE :=
  { file with pos := off }

/-- The call `fseek(file, 0, SEEK_END)`. -/
def fseek_end (file : FILE) : FILE :=
  { file with pos := file.data.length }

/-- The call `ftell(file)`. -/
def ftell (file : FILE) : Nat :=
  file.pos

/-- The bytes an `fread` of `count` bytes delivers, and the stream after it:
the bytes from the cursor on, at most `count` of them. -/
def fread (file : FILE) (count : Nat) : List Byte × FILE :=
  let got := (file.data.drop file.pos).take count
  (got, { file with pos := file.pos + got.length })

/-- A buffer after `fread` stored `got` at its start: the rest of the buffer
keeps what it held. -/
def store (buffer got : List Byte) : List Byte :=
  got ++ buffer.drop got.length

/-- Source `read_xdr_int`: seek to `pos`, read four bytes into a zeroed
array, and build the number most significant byte first.  The shifts are
taken on the 32-bit pattern and the result is a `uint32_t`. -/
def read_xdr_int (file : FILE) (pos : Nat) : Nat × FILE :=
  let file := fseek_set file pos
  let bytes : List Byte := [0, 0, 0, 0]
  let r := fread file 4
  let bytes := store bytes r.1
  let number :=
    ((bytes.getD 0 0).val <<< 24 ||| (bytes.getD 1 0).val <<< 16
      ||| (bytes.getD 2 0).val <<< 8 ||| (bytes.getD 3 0).val) % 2 ^ 32
  (number, r.2)

/-! ## The skip offset -/

/-- Source `main`, lines 78 to 81: the value of `start` for a file that is
not the first one, from the number read at offset 88.  All arithmetic is on
`uint32_t`. -/
def start_of (number : Nat) : Nat :=
  let start := (number + 92) % 2 ^ 32
  if start % 4 ≠ 0 then (start + (4 - start % 4)) % 2 ^ 32 else start

/-! ## Command-line parsing -/

/-- The variables of the argument loop of `main`: `output_filename`, the
array `input_filenames` (100 entries, a null pointer is `none`) and the
counter `block_input`. -/
structure Args where
  output_filename : Option String
  input_filenames : List (Option String)
  block_input : Nat
  deriving DecidableEq

/-- The variables as `main` initialises them (lines 32 to 34). -/
def Args.init : Args :=
  { output_filename := none, input_filenames := List.replicate 100 none, block_input := 0 }

/-- Source `main`, lines 35 to 51, on the arguments from `argv[i]` on.
After a trailing `-o` the output name is `argv[argc]`, the null pointer.  A
store at index 100 or beyond has no defined result. -/
def parse_loop : List String → Args → Option Args
  | [], st => some st
  | a :: rest, st =>
    if a = "-o" then
      match rest with
      | [] => some { st with output_filename := none }
      | o :: rest2 => parse_loop rest2 { st with output_filename := some o }
    else if a = "-f" then
      parse_loop rest { st with block_input := 1 }
    else if st.block_input ≠ 0 then
      if st.block_input - 1 < 100 then
        parse_loop rest
          { st with
            input_filenames := st.input_filenames.set (st.block_input - 1) (some a)
            block_input := st.block_input + 1 }
      else none
    else parse_loop rest st

/-- The argument parser of `main` on the whole command line `argv`
(`argv[0]` is the program name). -/
def parse_args (argv : List String) : Option Args :=
  parse_loop (argv.drop 1) Args.init

/-- The entries of `input_filenames` that `main` goes on to use: those at the
indices `0 .. block_input - 2`. -/
def Args.inputs (st : Args) : List (Option String) :=
  st.input_filenames.take (st.block_input - 1)

/-! ## The file system -/

/-- A call of `fopen`, with the path it was given. -/
inductive Event where
  | open_read (path : Option String)
  | open_write (path : Option String)
  deriving DecidableEq

/-- The environment of a run: the content of every file that can be opened
for reading, the paths that can be opened for writing, the buffer sizes
`calloc` can deliver, and the `fopen` calls made so far. -/
structure World where
  files : String → Option (List Byte)
  writable : String → Bool
  calloc_ok : Nat → Bool
  trace : List Event

/-- A stream opened with `fopen(path, "wb")`: the path and the bytes written
to the stream that have not reached the file yet. -/
structure OStream where
  path : String
  pending : List Byte

/-- The call `fopen(path, "rb")`: a stream at offset 0 when the file can be
opened, the null pointer otherwise (also for a null path). -/
def fopen_rb (w : World) (path : Option String) : Option FILE × World :=
  let w1 := { w with trace := w.trace ++ [Event.open_read path] }
  match path with
  | none => (none, w1)
  | some p => ((w.files p).map fun d => { data := d, pos := 0 }, w1)

/-- The call `fopen(path, "wb")`: when the path can be opened for writing the
file is created or truncated to length zero; otherwise (also for a null
path) the result is the null pointer and no file changes. -/
def fopen_wb (w : World) (path : Option String) : Option OStream × World :=
  let w1 := { w with trace := w.trace ++ [Event.open_write path] }
  match path with
  | none => (none, w1)
  | some p =>
    if w.writable p then
      (some { path := p, pending := [] },
        { w1 with files := fun q => if q = p then some [] else w.files q })
    else (none, w1)

/-- The call `fwrite(buffer, size, 1, output)`: the first `size` bytes of the
buffer go to the stream. -/
def fwrite (output : OStream) (buffer : List Byte) (size : Nat) : OStream :=
  { output with pending := output.pending ++ buffer.take size }

/-- The call `fflush(output)`: the pending bytes are appended to the file. -/
def fflush (output : OStream) (w : World) : OStream × World :=
  ({ output with pending := [] },
    { w with
      files := fun q =>
        if q = output.path then some ((w.files output.path).getD [] ++ output.pending)
        else w.files q })

/-- The call `fclose(output)`: flush, then the stream is gone. -/
def fclose (output : OStream) (w : World) : World :=
  (fflush output w).2

/-- Conversion of a `long` to `size_t`: a negative value wraps around
`2 ^ 64`; a `long` that is not negative is below `2 ^ 63` and keeps its
value. -/
def to_size_t (n : Int) : Nat :=
  if n < 0 then (n % 2 ^ 64).toNat else n.toNat

/-! ## The main loop -/

/-- Source `main`, lines 64 to 107: one round per entry of
`input_filenames` below `block_input - 1`, `i` being the loop counter; the
result is the exit status and the environment at `return`. -/
def main_loop : List (Option String) → Nat → OStream → World → Int × World
  | [], _, output, w => (0, fclose output w)
  | name :: names, i, output, w =>
    let o := fopen_rb w name
    match o.1 with
    | none => (1, fclose output o.2)
    | some input =>
      let s := if i ≠ 0 then
          let r := read_xdr_int input 88
          (start_of r.1, r.2)
        else (0, input)
      let start := s.1
      let input := fseek_end s.2
      let filelen : Int := (ftell input : Int) - (start : Int)
      let input := fseek_set input start
      if o.2.calloc_ok (to_size_t filelen) = false then
        (1, fclose output o.2)
      else
        let buffer : List Byte := List.replicate (to_size_t filelen) 0
        let buffer := store buffer (fread input (to_size_t filelen)).1
        let output := fwrite output buffer (to_size_t filelen)
        let f := fflush output o.2
        main_loop names (i + 1) f.1 f.2

/-- Source `main`: exit status and final environment of a run on the command
line `argv`; `none` when the parser stores out of bounds. -/
def main (argv : List String) (w : World) : Option (Int × World) :=
  if argv.length < 3 then some (1, w)
  else
    match parse_args argv with
    | none => none
    | some st =>
      let o := fopen_wb w st.output_filename
      match o.1 with
      | none => some (1, o.2)
      | some output => some (main_loop st.inputs 0 output o.2)

/-! ## Vocabulary of the specification -/

/-- The byte at index `k` with bytes past the end of the list taken as zero. -/
def byteAt (data : List Byte) (k : Nat) : Nat :=
  (data.getD k 0).val

/-- The big-endian value of four bytes. -/
def be32 (b0 b1 b2 b3 : Nat) : Nat :=
  b0 * 2 ^ 24 + b1 * 2 ^ 16 + b2 * 2 ^ 8 + b3

/-- The skip offset the program computes for a file with content `data` that
is not the first input. -/
def skip_offset (data : List Byte) : Nat :=
  start_of (read_xdr_int { data := data, pos := 0 } 88).1

/-- The content of the file at `path`, empty when there is none. -/
def content (w : World) (path : String) : List Byte :=
  (w.files path).getD []

/-- The arguments that are neither a recognised flag nor the value of a
recognised `-o`, in command-line order. -/
def plain_args : List String → List String
  | [] => []
  | a :: rest =>
    if a = "-o" then
      match rest with
      | [] => []
      | _ :: rest2 => plain_args rest2
    else if a = "-f" then plain_args rest
    else a :: plain_args rest

/-- The arguments behind the last recognised `-f` (an `-f` that is the value
of an `-o` is not a flag); `none` when no `-f` is recognised. -/
def after_last_f : List String → Option (List String)
  | [] => none
  | a :: rest =>
    if a = "-o" then
      match rest with
      | [] => none
      | _ :: rest2 => after_last_f rest2
    else if a = "-f" then
      match after_last_f rest with
      | some r => some r
      | none => some rest
    else after_last_f rest

/-- The input paths in the words of the amended command-line description: the
arguments behind the last recognised `-f`, without any recognised `-o` and
the argument that follows it. -/
def inputs_after_last_f (args : List String) : List String :=
  match after_last_f args with
  | some r => plain_args r
  | none => []

/-- The input paths in the words of the command-line description: the
arguments that follow `-f` up to, not including, the next `-f` or `-o`. -/
def inputs_up_to_next_flag : List String → List String
  | [] => []
  | a :: rest =>
    if a = "-f" then rest.takeWhile fun b => b ≠ "-f" ∧ b ≠ "-o"
    else inputs_up_to_next_flag rest

/-- The output path the scan of `args` leaves, `cur` being the value before:
the argument behind the last recognised `-o`, the null pointer when that
`-o` is the last argument. -/
def output_arg : List String → Option String → Option String
  | [], cur => cur
  | a :: rest, cur =>
    if a = "-o" then
      match rest with
      | [] => none
      | o :: rest2 => output_arg rest2 (some o)
    else output_arg rest cur

/-- The parser is collecting and `acc` are the paths stored since the last
`-f`: they fill the array from index 0 and `block_input` is one more than
their number. -/
def Args.Collecting (st : Args) (acc : List String) : Prop :=
  st.input_filenames.length = 100 ∧ st.block_input = acc.length + 1 ∧ acc.length ≤ 100 ∧
    st.input_filenames.take acc.length = acc.map some

/-- The bytes of the later inputs `ps` that follow their skip offsets, in
order. -/
def tails (w : World) (ps : List String) : List Byte :=
  (ps.map fun p => (content w p).drop (skip_offset (content w p))).flatten

/-- The result of concatenating the inputs `ps`: nothing for no input,
otherwise all of the first file and the later files from their skip offsets
on. -/
def expected (w : World) : List String → List Byte
  | [] => []
  | first :: rest => content w first ++ tails w rest

/-- The declared payload length of a file: the big-endian 32-bit value at
the bytes 88 to 91, a byte the file does not have counting as 0. -/
def declared_length (data : List Byte) : Nat :=
  be32 (byteAt data 88) (byteAt data 89) (byteAt data 90) (byteAt data 91)

/-- Rounding up to a multiple of 4, in the words of the specification: if
`n mod 4` is not 0, add `4 - n mod 4`. -/
def round_up4 (n : Nat) : Nat :=
  if n % 4 ≠ 0 then n + (4 - n % 4) else n

/-- The frame boundary of a file as the specification words it: 92 plus the
declared payload length, rounded up to a multiple of 4. -/
def boundary (data : List Byte) : Nat :=
  round_up4 (92 + declared_length data)

/-- The frame boundary reduced modulo `2 ^ 32`. -/
def boundary32 (data : List Byte) : Nat :=
  boundary data % 2 ^ 32

/-- The concatenation of the inputs `ps` with every later file cut at its
frame boundary modulo `2 ^ 32`: nothing for no input, otherwise all of the
first file followed by each later file from that offset on. -/
def concatenation (w : World) : List String → List Byte
  | [] => []
  | first :: rest =>
    content w first ++
      (rest.map fun p => (content w p).drop (boundary32 (content w p))).flatten

/-- The environment after the inputs `ps` were opened and `bytes` reached the
end of the file at `out`. -/
def after_all (w : World) (out : String) (bytes : List Byte) (ps : List String) : World :=
  { w with
    files := fun q => if q = out then some (content w out ++ bytes) else w.files q
    trace := w.trace ++ ps.map fun p => Event.open_read (some p) }

/-- The environment after `fopen(out, "wb")` succeeded: the file at `out` is
empty. -/
def opened (w : World) (out : String) : World :=
  { w with
    files := fun q => if q = out then some [] else w.files q
    trace := w.trace ++ [Event.open_write (some out)] }

/-- Source `main`, lines 75 to 82, in round `i` on the stream `input`: the
value of `start` and the stream after it. -/
def round_start (i : Nat) (input : FILE) : Nat × FILE :=
  if i ≠ 0 then (start_of (read_xdr_int input 88).1, (read_xdr_int input 88).2)
  else (0, input)

/-- Source `main`, lines 84 and 85, in round `i` on the stream `input`: the
value of the `long filelen`, the file length `ftell` reports less `start`. -/
def filelen_of (i : Nat) (input : FILE) : Int :=
  (ftell (fseek_end (round_start i input).2) : Int) - ((round_start i input).1 : Int)

/-- Source `main`, lines 86 to 96, in round `i` on the stream `input`: the
buffer of `filelen` zero bytes after `fread` stored what it got from offset
`start` on. -/
def buffer_of (i : Nat) (input : FILE) : List Byte :=
  store (List.replicate (to_size_t (filelen_of i input)) 0)
    (fread (fseek_set (fseek_end (round_start i input).2) (round_start i input).1)
      (to_size_t (filelen_of i input))).1

/-- The arguments with every `-o` and the argument immediately following it
removed, scanning from the left. -/
def strip_o_pairs : List String → List String
  | [] => []
  | a :: rest =>
    if a = "-o" then
      match rest with
      | [] => []
      | _ :: rest2 => strip_o_pairs rest2
    else a :: strip_o_pairs rest

/-- The arguments located after the last occurrence of `flag`; `none` when
`flag` does not occur. -/
def after_last_occurrence (flag : String) : List String → Option (List String)
  | [] => none
  | a :: rest =>
    match after_last_occurrence flag rest with
    | some r => some r
    | none => if a = flag then some rest else none

/-! ## A small environment for the examples -/

/-- A first input of three bytes. -/
def demo_a : List Byte := [1, 2, 3]

/-- A later input: a header with payload length 1 at offset 88, four bytes
of frame data and padding, and two bytes behind the skip offset 96. -/
def demo_b : List Byte :=
  List.replicate 88 0 ++ [0, 0, 0, 1] ++ [9, 9, 9, 9] ++ [7, 8]

/-- An environment with the files `a` and `b`, in which every path but
`locked` can be opened for writing and every buffer but one of 5 bytes can be
allocated. -/
def demo_world : World :=
  { files := fun p =>
      if p = "a" then some demo_a else if p = "b" then some demo_b else none
    writable := fun p => p ≠ "locked"
    calloc_ok := fun n => n ≠ 5
    trace := [] }

/-- A header of 92 bytes that declares the payload length `2 ^ 32 - 1`. -/
def big_head : List Byte :=
  List.replicate 88 0 ++ [255, 255, 255, 255]

/-- A body of `2 ^ 32` bytes. -/
@[irreducible]
def big_body : List Byte :=
  List.replicate (2 ^ 32) 1

/-- A file of `2 ^ 32 + 92` bytes whose header declares the payload length
`2 ^ 32 - 1`. -/
def big_b : List Byte :=
  big_head ++ big_body

/-- An environment with the three-byte file `a` and the large file `b`, in
which every path can be opened for writing and every buffer allocated. -/
def big_world : World :=
  { files := fun p =>
      if p = "a" then some demo_a else if p = "b" then some big_b else none
    writable := fun _ => true
    calloc_ok := fun _ => true
    trace := [] }

/-! ## Reading four bytes -/

theorem or_shift_eq_be32 (b0 b1 b2 b3 : Nat) (h0 : b0 < 256) (h1 : b1 < 256)
    (h2 : b2 < 256) (h3 : b3 < 256) :
    (b0 <<< 24 ||| b1 <<< 16 ||| b2 <<< 8 ||| b3) % 2 ^ 32 = be32 b0 b1 b2 b3 := by
  have e3 : 2 ^ 8 * b2 + b3 = 2 ^ 8 * b2 ||| b3 :=
    Nat.mul_add_lt_is_or (by omega) b2
  have e2 : 2 ^ 16 * b1 + (2 ^ 8 * b2 + b3) = 2 ^ 16 * b1 ||| (2 ^ 8 * b2 + b3) :=
    Nat.mul_add_lt_is_or (by omega) b1
  have e1 : 2 ^ 24 * b0 + (2 ^ 16 * b1 + (2 ^ 8 * b2 + b3))
      = 2 ^ 24 * b0 ||| (2 ^ 16 * b1 + (2 ^ 8 * b2 + b3)) :=
    Nat.mul_add_lt_is_or (by omega) b0
  have hval : b0 <<< 24 ||| b1 <<< 16 ||| b2 <<< 8 ||| b3
      = 2 ^ 24 * b0 + (2 ^ 16 * b1 + (2 ^ 8 * b2 + b3)) := by
    rw [e1, e2, e3, Nat.shiftLeft_eq, Nat.shiftLeft_eq, Nat.shiftLeft_eq]
    simp only [Nat.mul_comm, Nat.lor_assoc]
  rw [hval]
  unfold be32
  omega

theorem getD_store_take4 (l : List Byte) (k : Nat) (hk : k < 4) :
    (store [0, 0, 0, 0] (l.take 4)).getD k 0 = l.getD k 0 := by
  match l, k, hk with
  | [], k, hk => interval_cases k <;> simp [store]
  | [a], k, hk => interval_cases k <;> simp [store]
  | [a, b], k, hk => interval_cases k <;> simp [store]
  | [a, b, c], k, hk => interval_cases k <;> simp [store]
  | a :: b :: c :: d :: rest, k, hk => interval_cases k <;> simp [store]

theorem getD_drop_eq (l : List Byte) (n k : Nat) :
    (l.drop n).getD k 0 = l.getD (n + k) 0 := by
  simp [List.getD_eq_getElem?_getD, List.getElem?_drop]

theorem read_xdr_int_val (file : FILE) (pos : Nat) :
    (read_xdr_int file pos).1 =
      be32 (byteAt file.data pos) (byteAt file.data (pos + 1))
        (byteAt file.data (pos + 2)) (byteAt file.data (pos + 3)) := by
  unfold read_xdr_int fread fseek_set byteAt
  simp only []
  rw [getD_store_take4 _ 0 (by omega), getD_store_take4 _ 1 (by omega),
    getD_store_take4 _ 2 (by omega), getD_store_take4 _ 3 (by omega)]
  simp only [getD_drop_eq, Nat.add_zero]
  exact or_shift_eq_be32 _ _ _ _ (Fin.isLt _) (Fin.isLt _) (Fin.isLt _) (Fin.isLt _)

/-! ## The argument parser -/

theorem collecting_inputs {st : Args} {acc : List String} (h : st.Collecting acc) :
    st.inputs = acc.map some := by
  obtain ⟨_, hb, _, ht⟩ := h
  simp [Args.inputs, hb, ht]

theorem collecting_push {st : Args} {acc : List String} (h : st.Collecting acc) (a : String)
    (hlt : acc.length < 100) :
    Args.Collecting
      { st with
        input_filenames := st.input_filenames.set (st.block_input - 1) (some a)
        block_input := st.block_input + 1 } (acc ++ [a]) := by
  obtain ⟨hl, hb, _, ht⟩ := h
  refine ⟨by simp [hl], by simp [hb], by simp; omega, ?_⟩
  simp only [hb, Nat.add_sub_cancel, List.length_append, List.length_singleton, List.map_append,
    List.map_cons, List.map_nil]
  rw [List.take_succ, List.set_take, ht, List.set_eq_of_length_le (by simp),
    List.getElem?_set_self (by omega)]
  rfl

theorem parse_loop_o_last (st : Args) :
    parse_loop ["-o"] st = some { st with output_filename := none } := by
  rw [parse_loop.eq_def]; simp

theorem parse_loop_o (o : String) (rest : List String) (st : Args) :
    parse_loop ("-o" :: o :: rest) st = parse_loop rest { st with output_filename := some o } := by
  rw [parse_loop.eq_def]; simp

theorem parse_loop_f (rest : List String) (st : Args) :
    parse_loop ("-f" :: rest) st = parse_loop rest { st with block_input := 1 } := by
  rw [parse_loop.eq_def]; simp

theorem parse_loop_store (a : String) (rest : List String) (st : Args) (ho : a ≠ "-o")
    (hf : a ≠ "-f") (h0 : st.block_input ≠ 0) (h1 : st.block_input - 1 < 100) :
    parse_loop (a :: rest) st =
      parse_loop rest
        { st with
          input_filenames := st.input_filenames.set (st.block_input - 1) (some a)
          block_input := st.block_input + 1 } := by
  rw [parse_loop.eq_def]; simp [ho, hf, h0, h1]

theorem parse_loop_skip (a : String) (rest : List String) (st : Args) (ho : a ≠ "-o")
    (hf : a ≠ "-f") (h0 : st.block_input = 0) :
    parse_loop (a :: rest) st = parse_loop rest st := by
  rw [parse_loop.eq_def]; simp [ho, hf, h0]

theorem plain_args_o (o : String) (rest : List String) :
    plain_args ("-o" :: o :: rest) = plain_args rest := by
  rw [plain_args.eq_def]; simp

theorem plain_args_f (rest : List String) : plain_args ("-f" :: rest) = plain_args rest := by
  rw [plain_args.eq_def]; simp

theorem plain_args_word (a : String) (rest : List String) (ho : a ≠ "-o") (hf : a ≠ "-f") :
    plain_args (a :: rest) = a :: plain_args rest := by
  rw [plain_args.eq_def]; simp [ho, hf]

theorem after_last_f_o (o : String) (rest : List String) :
    after_last_f ("-o" :: o :: rest) = after_last_f rest := by
  rw [after_last_f.eq_def]; simp

theorem after_last_f_f (rest : List String) :
    after_last_f ("-f" :: rest) = some ((after_last_f rest).getD rest) := by
  rw [after_last_f.eq_def]; simp
  cases after_last_f rest <;> rfl

theorem after_last_f_word (a : String) (rest : List String) (ho : a ≠ "-o") (hf : a ≠ "-f") :
    after_last_f (a :: rest) = after_last_f rest := by
  rw [after_last_f.eq_def]; simp [ho, hf]

theorem parse_loop_collecting (args : List String) (st : Args) :
    ∀ acc : List String, st.Collecting acc →
      acc.length + (plain_args args).length ≤ 100 →
      ∃ st2, parse_loop args st = some st2 ∧
        st2.Collecting (match after_last_f args with
          | some r => plain_args r
          | none => acc ++ plain_args args) := by
  induction args, st using parse_loop.induct with
  | case1 st =>
    intro acc hc _
    exact ⟨st, rfl, by simpa [after_last_f, plain_args] using hc⟩
  | case2 st =>
    intro acc hc _
    exact ⟨_, parse_loop_o_last st, by simpa [after_last_f, plain_args] using hc⟩
  | case3 st o rest2 ih =>
    intro acc hc hb
    rw [plain_args_o] at hb
    rw [parse_loop_o, after_last_f_o, plain_args_o]
    exact ih acc hc hb
  | case4 rest st ho ih =>
    intro acc hc hb
    rw [plain_args_f] at hb
    have hc0 : Args.Collecting { st with block_input := 1 } [] :=
      ⟨hc.1, rfl, by simp, by simp⟩
    obtain ⟨st2, h1, h2⟩ := ih [] hc0 (by simp; omega)
    refine ⟨st2, by rw [parse_loop_f]; exact h1, ?_⟩
    rw [after_last_f_f]
    cases hr : after_last_f rest with
    | some r => simpa [hr] using h2
    | none => simpa [hr] using h2
  | case5 a rest st ho hf hb1 hb2 ih =>
    intro acc hc hb
    rw [plain_args_word a rest ho hf] at hb
    have hlen : acc.length < 100 := by simp at hb; omega
    obtain ⟨st2, h1, h2⟩ := ih (acc ++ [a]) (collecting_push hc a hlen)
      (by simp at hb; simp; omega)
    refine ⟨st2, by rw [parse_loop_store a rest st ho hf hb1 hb2]; exact h1, ?_⟩
    rw [after_last_f_word a rest ho hf, plain_args_word a rest ho hf]
    cases hr : after_last_f rest with
    | some r => simpa [hr] using h2
    | none => simpa [hr] using h2
  | case6 a rest st ho hf hb1 hb2 =>
    intro acc hc hb
    rw [plain_args_word a rest ho hf] at hb
    have hlen : acc.length < 100 := by simp at hb; omega
    exact absurd (by rw [hc.2.1]; omega) hb2
  | case7 a rest st ho hf hb1 ih =>
    intro acc hc hb
    exact absurd (by rw [hc.2.1]; omega) hb1

theorem parse_loop_idle (args : List String) (st : Args) :
    st.block_input = 0 → st.input_filenames.length = 100 →
      (plain_args args).length ≤ 100 →
      ∃ st2, parse_loop args st = some st2 ∧
        match after_last_f args with
        | some r => st2.Collecting (plain_args r)
        | none => st2.block_input = 0 := by
  induction args, st using parse_loop.induct with
  | case1 st =>
    intro h0 _ _
    exact ⟨st, rfl, by simpa [after_last_f] using h0⟩
  | case2 st =>
    intro h0 _ _
    exact ⟨_, parse_loop_o_last st, by simpa [after_last_f] using h0⟩
  | case3 st o rest2 ih =>
    intro h0 hl hb
    rw [plain_args_o] at hb
    rw [parse_loop_o, after_last_f_o]
    exact ih h0 hl hb
  | case4 rest st ho ih =>
    intro h0 hl hb
    rw [plain_args_f] at hb
    have hc0 : Args.Collecting { st with block_input := 1 } [] :=
      ⟨hl, rfl, by simp, by simp⟩
    obtain ⟨st2, h1, h2⟩ := parse_loop_collecting rest _ [] hc0 (by simp; omega)
    refine ⟨st2, by rw [parse_loop_f]; exact h1, ?_⟩
    rw [after_last_f_f]
    cases hr : after_last_f rest with
    | some r => simpa [hr] using h2
    | none => simpa [hr] using h2
  | case5 a rest st ho hf hb1 hb2 ih =>
    intro h0 _ _
    exact absurd h0 hb1
  | case6 a rest st ho hf hb1 hb2 =>
    intro h0 _ _
    exact absurd h0 hb1
  | case7 a rest st ho hf hb1 ih =>
    intro h0 hl hb
    rw [plain_args_word a rest ho hf] at hb
    rw [parse_loop_skip a rest st ho hf h0, after_last_f_word a rest ho hf]
    exact ih h0 hl (by simp at hb; omega)

theorem output_arg_o (o : String) (rest : List String) (cur : Option String) :
    output_arg ("-o" :: o :: rest) cur = output_arg rest (some o) := by
  rw [output_arg.eq_def]; simp

theorem output_arg_other (a : String) (rest : List String) (cur : Option String)
    (ho : a ≠ "-o") : output_arg (a :: rest) cur = output_arg rest cur := by
  rw [output_arg.eq_def]; simp [ho]

theorem parse_loop_output (args : List String) (st : Args) :
    ∀ st2, parse_loop args st = some st2 →
      st2.output_filename = output_arg args st.output_filename := by
  induction args, st using parse_loop.induct with
  | case1 st =>
    intro st2 h
    simp only [parse_loop, Option.some.injEq] at h
    subst h; rfl
  | case2 st =>
    intro st2 h
    rw [parse_loop_o_last, Option.some.injEq] at h
    subst h; rw [output_arg.eq_def]; simp
  | case3 st o rest2 ih =>
    intro st2 h
    rw [parse_loop_o] at h
    rw [output_arg_o]; exact ih st2 h
  | case4 rest st ho ih =>
    intro st2 h
    rw [parse_loop_f] at h
    rw [output_arg_other _ _ _ ho]; exact ih st2 h
  | case5 a rest st ho hf hb1 hb2 ih =>
    intro st2 h
    rw [parse_loop_store a rest st ho hf hb1 hb2] at h
    rw [output_arg_other _ _ _ ho]; exact ih st2 h
  | case6 a rest st ho hf hb1 hb2 =>
    intro st2 h
    rw [parse_loop.eq_def] at h
    simp [ho, hf, hb1, hb2] at h
  | case7 a rest st ho hf hb1 ih =>
    intro st2 h
    rw [parse_loop_skip a rest st ho hf (by simpa using hb1)] at h
    rw [output_arg_other _ _ _ ho]; exact ih st2 h

theorem plain_args_block (ins rest : List String) (h : ∀ a ∈ ins, a ≠ "-f" ∧ a ≠ "-o") :
    plain_args (ins ++ rest) = ins ++ plain_args rest := by
  induction ins with
  | nil => rfl
  | cons a ins ih =>
    have ha := h a (List.mem_cons_self _ _)
    rw [List.cons_append, plain_args_word a _ ha.2 ha.1,
      ih fun b hb => h b (List.mem_cons_of_mem _ hb)]
    rfl

theorem after_last_f_block (ins rest : List String) (h : ∀ a ∈ ins, a ≠ "-f" ∧ a ≠ "-o") :
    after_last_f (ins ++ rest) = after_last_f rest := by
  induction ins with
  | nil => rfl
  | cons a ins ih =>
    have ha := h a (List.mem_cons_self _ _)
    rw [List.cons_append, after_last_f_word a _ ha.2 ha.1,
      ih fun b hb => h b (List.mem_cons_of_mem _ hb)]

theorem output_arg_block (ins rest : List String) (cur : Option String)
    (h : ∀ a ∈ ins, a ≠ "-f" ∧ a ≠ "-o") :
    output_arg (ins ++ rest) cur = output_arg rest cur := by
  induction ins with
  | nil => rfl
  | cons a ins ih =>
    have ha := h a (List.mem_cons_self _ _)
    rw [List.cons_append, output_arg_other a _ _ ha.2,
      ih fun b hb => h b (List.mem_cons_of_mem _ hb)]

theorem init_idle : Args.init.block_input = 0 ∧ Args.init.input_filenames.length = 100 :=
  ⟨rfl, by simp [Args.init]⟩

/-- The parser has a result on every argument list with at most 100 plain
arguments; its input list and output path are the ones the scan describes. -/
theorem parse_loop_init (args : List String) (h : (plain_args args).length ≤ 100) :
    ∃ st, parse_loop args Args.init = some st ∧
      st.inputs = (inputs_after_last_f args).map some ∧
      st.output_filename = output_arg args none := by
  obtain ⟨st, h1, h2⟩ := parse_loop_idle args Args.init init_idle.1 init_idle.2 h
  refine ⟨st, h1, ?_, parse_loop_output args Args.init st h1⟩
  unfold inputs_after_last_f
  cases hr : after_last_f args with
  | some r =>
    rw [hr] at h2
    exact collecting_inputs h2
  | none =>
    rw [hr] at h2
    simp only [] at h2
    simp [Args.inputs, h2]

/-- With fewer than two arguments behind the program name the parser
collects no input. -/
theorem parse_args_short (argv : List String) (h : argv.length < 3) :
    ∀ st, parse_args argv = some st → st.inputs = [] := by
  intro st hst
  match argv, h with
  | [], _ => simp [parse_args, parse_loop] at hst; subst hst; rfl
  | [_], _ => simp [parse_args, parse_loop] at hst; subst hst; rfl
  | [_, a], _ =>
    simp only [parse_args, List.drop_succ_cons, List.drop_zero] at hst
    rw [parse_loop.eq_def] at hst
    simp only [Args.init, parse_loop] at hst
    by_cases ho : a = "-o"
    · simp [ho] at hst; subst hst; rfl
    · by_cases hf : a = "-f"
      · simp [hf] at hst; subst hst; rfl
      · simp [ho, hf] at hst; subst hst; rfl
  | _ :: _ :: _ :: _, h => simp at h; omega

/-! ## Claims about the command line -/

/-- C6: with zero or one argument behind the program name (`argc < 3`) the
run returns exit status 1 and the environment is the one it started in: no
file is created, truncated or changed and no `fopen` call is made. -/
theorem usage_exit_leaves_world (argv : List String) (w : World) (h : argv.length < 3) :
    main argv w = some (1, w) := by
  simp [main, h]

theorem usage_exit_leaves_world_witness :
    ["xtcat", "-f"].length < 3 ∧ main ["xtcat", "-f"] demo_world = some (1, demo_world) :=
  ⟨by decide, usage_exit_leaves_world ["xtcat", "-f"] demo_world (by decide)⟩

/-- C7, as stated, fails: on `xtcat -f a -o out b` the parser collects `a`
and `b`, while the arguments that follow `-f` up to the next flag are `a`
alone. -/
theorem inputs_not_cut_at_next_flag :
    (parse_args ["xtcat", "-f", "a", "-o", "out", "b"]).map Args.inputs
        = some [some "a", some "b"] ∧
      inputs_up_to_next_flag ["-f", "a", "-o", "out", "b"] = ["a"] ∧
      (parse_args ["xtcat", "-f", "a", "-o", "out", "b"]).map Args.inputs
        ≠ some ((inputs_up_to_next_flag ["-f", "a", "-o", "out", "b"]).map some) := by
  decide

/-- C7, amended: on every command line with at most 100 arguments that are
neither a recognised flag nor the value of an `-o`, the parser has a result
and the input paths it collects are, in command-line order, the arguments
behind the last recognised `-f` without every recognised `-o` and the
argument that follows it. -/
theorem inputs_are_after_last_f (argv : List String)
    (h : (plain_args (argv.drop 1)).length ≤ 100) :
    ∃ st, parse_args argv = some st ∧
      st.inputs = (inputs_after_last_f (argv.drop 1)).map some := by
  obtain ⟨st, h1, h2, _⟩ := parse_loop_init (argv.drop 1) h
  exact ⟨st, h1, h2⟩

theorem inputs_are_after_last_f_witness :
    (plain_args ["-f", "x", "-f", "a", "-o", "out", "b"]).length ≤ 100 ∧
      ∃ st, parse_args ["xtcat", "-f", "x", "-f", "a", "-o", "out", "b"] = some st ∧
        st.inputs = [some "a", some "b"] :=
  ⟨by decide,
    inputs_are_after_last_f ["xtcat", "-f", "x", "-f", "a", "-o", "out", "b"] (by decide)⟩

/-- C8: for every output path `OUT` and at most 100 input paths, none of them
`-f` or `-o`, the parser yields the input list `I1 .. In` and the output path
`OUT` on `-o OUT -f I1 .. In` and on `-f I1 .. In -o OUT` alike. -/
theorem flag_order_irrelevant (prog OUT : String) (ins : List String)
    (hlen : ins.length ≤ 100) (hplain : ∀ a ∈ ins, a ≠ "-f" ∧ a ≠ "-o") :
    (∃ st, parse_args (prog :: "-o" :: OUT :: "-f" :: ins) = some st ∧
        st.inputs = ins.map some ∧ st.output_filename = some OUT) ∧
      (∃ st, parse_args (prog :: "-f" :: (ins ++ ["-o", OUT])) = some st ∧
        st.inputs = ins.map some ∧ st.output_filename = some OUT) := by
  have hp : plain_args ins = ins := by
    simpa [plain_args] using plain_args_block ins [] hplain
  have ha : after_last_f ins = none := by
    simpa [after_last_f] using after_last_f_block ins [] hplain
  constructor
  · obtain ⟨st, h1, h2, h3⟩ := parse_loop_init ("-o" :: OUT :: "-f" :: ins)
      (by rw [plain_args_o, plain_args_f, hp]; exact hlen)
    refine ⟨st, h1, ?_, ?_⟩
    · rw [h2, inputs_after_last_f, after_last_f_o, after_last_f_f, ha]
      simp [hp]
    · rw [h3, output_arg_o, output_arg_other _ _ _ (by decide)]
      simpa [output_arg] using output_arg_block ins [] (some OUT) hplain
  · have hp2 : plain_args (ins ++ ["-o", OUT]) = ins := by
      rw [plain_args_block ins _ hplain, plain_args_o]; simp [plain_args]
    obtain ⟨st, h1, h2, h3⟩ := parse_loop_init ("-f" :: (ins ++ ["-o", OUT]))
      (by rw [plain_args_f, hp2]; exact hlen)
    refine ⟨st, h1, ?_, ?_⟩
    · rw [h2, inputs_after_last_f, after_last_f_f, after_last_f_block ins _ hplain,
        after_last_f_o]
      simp [after_last_f, hp2]
    · rw [h3, output_arg_other _ _ _ (by decide), output_arg_block ins _ _ hplain,
        output_arg_o]
      rfl

theorem flag_order_irrelevant_witness :
    ["a", "b"].length ≤ 100 ∧ (∀ a ∈ ["a", "b"], a ≠ "-f" ∧ a ≠ "-o") ∧
    (∃ st, parse_args ["xtcat", "-o", "out", "-f", "a", "b"] = some st ∧
        st.inputs = [some "a", some "b"] ∧ st.output_filename = some "out") ∧
      (∃ st, parse_args ["xtcat", "-f", "a", "b", "-o", "out"] = some st ∧
        st.inputs = [some "a", some "b"] ∧ st.output_filename = some "out") :=
  ⟨by decide, by decide,
    flag_order_irrelevant "xtcat" "out" ["a", "b"] (by decide) (by decide)⟩

/-! ## Claims about the header field and the skip offset -/

theorem byteAt_get (data : List Byte) (k : Nat) (h : k < data.length) :
    byteAt data k = (data.get ⟨k, h⟩).val := by
  simp [byteAt, List.getD_eq_getElem?_getD, List.getElem?_eq_getElem h]

theorem byteAt_of_le (data : List Byte) (k : Nat) (h : data.length ≤ k) : byteAt data k = 0 := by
  simp [byteAt, List.getD_eq_getElem?_getD, List.getElem?_eq_none h]

/-- C4: when the file has at least `pos + 4` bytes, `read_xdr_int(file, pos)`
is `b0 * 2 ^ 24 + b1 * 2 ^ 16 + b2 * 2 ^ 8 + b3` for the bytes `b0 .. b3` at
`pos .. pos + 3`, whatever the other bytes and the cursor are; the bytes
`00 00 03 E8` at offset 88 give 1000. -/
theorem read_xdr_int_big_endian (file : FILE) (pos : Nat) (h : pos + 4 ≤ file.data.length) :
    (read_xdr_int file pos).1 =
        (file.data.get ⟨pos, by omega⟩).val * 2 ^ 24
          + (file.data.get ⟨pos + 1, by omega⟩).val * 2 ^ 16
          + (file.data.get ⟨pos + 2, by omega⟩).val * 2 ^ 8
          + (file.data.get ⟨pos + 3, by omega⟩).val ∧
      (∀ (before after : List Byte) (cursor : Nat), before.length = 88 →
        (read_xdr_int
          { data := before ++ [0x00, 0x00, 0x03, 0xE8] ++ after, pos := cursor } 88).1 = 1000) := by
  constructor
  · rw [read_xdr_int_val, byteAt_get _ _ (by omega), byteAt_get _ _ (by omega),
      byteAt_get _ _ (by omega), byteAt_get _ _ (by omega)]
    rfl
  · intro before after cursor hb
    rw [read_xdr_int_val]
    have hk : ∀ k, byteAt (before ++ [0x00, 0x00, 0x03, 0xE8] ++ after) (88 + k)
        = byteAt ([0x00, 0x00, 0x03, 0xE8] ++ after) k := by
      intro k
      simp only [byteAt, List.getD_eq_getElem?_getD, List.append_assoc]
      rw [List.getElem?_append_right (by omega)]
      simp [hb]
    have h0 := hk 0
    have h1 := hk 1
    have h2 := hk 2
    have h3 := hk 3
    simp only [Nat.add_zero] at h0
    rw [h0, h1, h2, h3]
    simp only [byteAt, be32, List.cons_append, List.getD_cons_zero, List.getD_cons_succ]
    decide

theorem read_xdr_int_big_endian_witness :
    1 + 4 ≤ [5, 0, 0, 3, 232, 9].length ∧
      (read_xdr_int { data := [5, 0, 0, 3, 232, 9], pos := 7 } 1).1 = 1000 :=
  ⟨by decide,
    (read_xdr_int_big_endian { data := [5, 0, 0, 3, 232, 9], pos := 7 } 1 (by decide)).1.trans
      (by decide)⟩

/-- C9: a short or missing read is zero-filled: for every file and offset
`read_xdr_int(file, pos)` is the big-endian value of the bytes at
`pos .. pos + 3` with the bytes past the end of the file taken as 0; it is 0
when `pos` is at or past the end, and a later input shorter than 89 bytes has
payload length 0 and skip offset 92. -/
theorem read_xdr_int_zero_filled (file : FILE) (pos : Nat) :
    (read_xdr_int file pos).1 =
        be32 (byteAt file.data pos) (byteAt file.data (pos + 1))
          (byteAt file.data (pos + 2)) (byteAt file.data (pos + 3)) ∧
      (file.data.length ≤ pos → (read_xdr_int file pos).1 = 0) ∧
      (file.data.length < 89 →
        (read_xdr_int file 88).1 = 0 ∧ skip_offset file.data = 92) := by
  have hz : ∀ (f : FILE) (p : Nat), f.data.length ≤ p → (read_xdr_int f p).1 = 0 := by
    intro f p hp
    rw [read_xdr_int_val, byteAt_of_le _ _ hp, byteAt_of_le _ _ (by omega),
      byteAt_of_le _ _ (by omega), byteAt_of_le _ _ (by omega)]
    rfl
  refine ⟨read_xdr_int_val file pos, hz file pos, fun h => ⟨?_, ?_⟩⟩
  · exact hz file 88 (by omega)
  · unfold skip_offset
    rw [hz { data := file.data, pos := 0 } 88 (Nat.le_of_lt_succ h)]
    decide

theorem read_xdr_int_zero_filled_witness :
    (read_xdr_int { data := [1, 2, 3], pos := 0 } 1).1 = 0x02030000 ∧
      ([1, 2, 3].length ≤ 3 → (read_xdr_int { data := [1, 2, 3], pos := 0 } 3).1 = 0) ∧
      ([1, 2, 3].length < 89 →
        (read_xdr_int { data := [1, 2, 3], pos := 0 } 88).1 = 0 ∧ skip_offset [1, 2, 3] = 92) :=
  ⟨(read_xdr_int_zero_filled { data := [1, 2, 3], pos := 0 } 1).1,
    (read_xdr_int_zero_filled { data := [1, 2, 3], pos := 0 } 3).2.1,
    (read_xdr_int_zero_filled { data := [1, 2, 3], pos := 0 } 3).2.2⟩

/-- C3, as stated, fails: for the payload length `2 ^ 32 - 1` the program
computes the skip offset 92, which is below `92 + L`. -/
theorem skip_offset_wraps :
    start_of 4294967295 = 92 ∧
      ¬ IsLeast {m | 4 ∣ m ∧ 92 + 4294967295 ≤ m} (start_of 4294967295) := by
  have h : start_of 4294967295 = 92 := by decide
  refine ⟨h, fun hl => ?_⟩
  have := hl.1.2
  rw [h] at this
  omega

/-- C3, amended: for every payload length `L` of the 32-bit field the skip
offset is the smallest multiple of 4 that is at least `92 + L`, reduced
modulo `2 ^ 32`; it is that multiple itself whenever `92 + L ≤ 2 ^ 32 - 4`;
`L = 1000` gives 1092 and `L = 1001` gives 1096. -/
theorem skip_offset_least_multiple (L : Nat) (hL : L < 2 ^ 32) :
    (∀ m, IsLeast {m | 4 ∣ m ∧ 92 + L ≤ m} m → start_of L = m % 2 ^ 32) ∧
      (92 + L ≤ 2 ^ 32 - 4 → IsLeast {m | 4 ∣ m ∧ 92 + L ≤ m} (start_of L)) ∧
      start_of 1000 = 1092 ∧ start_of 1001 = 1096 := by
  refine ⟨?_, ?_, by decide, by decide⟩
  · intro m hm
    have h1 : 4 ∣ m := hm.1.1
    have h2 : 92 + L ≤ m := hm.1.2
    have h3 : m ≤ (92 + L + 3) / 4 * 4 := hm.2 ⟨by omega, by omega⟩
    unfold start_of
    simp only []
    split <;> omega
  · intro hb
    unfold start_of
    simp only []
    refine ⟨⟨?_, ?_⟩, fun m hm => ?_⟩
    · split <;> omega
    · split <;> omega
    · have h1 : 4 ∣ m := hm.1
      have h2 : 92 + L ≤ m := hm.2
      split <;> omega

theorem skip_offset_least_multiple_witness :
    (1001 : Nat) < 2 ^ 32 ∧
      (∀ m, IsLeast {m | 4 ∣ m ∧ 92 + 1001 ≤ m} m → start_of 1001 = m % 2 ^ 32) ∧
      (92 + 1001 ≤ 2 ^ 32 - 4 → IsLeast {m | 4 ∣ m ∧ 92 + 1001 ≤ m} (start_of 1001)) ∧
      start_of 1000 = 1092 ∧ start_of 1001 = 1096 :=
  ⟨by decide, skip_offset_least_multiple 1001 (by decide)⟩

/-! ## The main loop -/

theorem to_size_t_sub (n s : Nat) (h : s ≤ n) : to_size_t ((n : Int) - (s : Int)) = n - s := by
  unfold to_size_t
  rw [if_neg (by omega)]
  omega

theorem store_whole_tail (data : List Byte) (s : Nat) :
    store (List.replicate (data.length - s) 0)
      (fread (fseek_set (fseek_end { data := data, pos := 0 }) s) (data.length - s)).1
      = data.drop s := by
  simp [store, fread, fseek_set, fseek_end]

/-- One round of the loop on an input that can be opened, is at least as long
as its start offset and whose buffer can be allocated. -/
theorem main_loop_copy (p out : String) (names : List (Option String)) (i : Nat) (w : World)
    (data : List Byte) (hfile : w.files p = some data)
    (hlen : (if i ≠ 0 then skip_offset data else 0) ≤ data.length)
    (halloc : w.calloc_ok (data.length - (if i ≠ 0 then skip_offset data else 0)) = true) :
    main_loop (some p :: names) i { path := out, pending := [] } w =
      main_loop names (i + 1) { path := out, pending := [] }
        (after_all w out (data.drop (if i ≠ 0 then skip_offset data else 0)) [p]) := by
  have hsz : to_size_t (((ftell (fseek_end { data := data, pos := 0 }) : Nat) : Int)
      - (((if i ≠ 0 then skip_offset data else 0 : Nat)) : Int))
      = data.length - (if i ≠ 0 then skip_offset data else 0) :=
    to_size_t_sub _ _ hlen
  have hstart : (if i ≠ 0 then
        (start_of (read_xdr_int { data := data, pos := 0 } 88).1,
          (read_xdr_int { data := data, pos := 0 } 88).2)
      else (0, ({ data := data, pos := 0 } : FILE))).1
      = (if i ≠ 0 then skip_offset data else 0) := by
    split <;> rfl
  have hdata : fseek_end (if i ≠ 0 then
        (start_of (read_xdr_int { data := data, pos := 0 } 88).1,
          (read_xdr_int { data := data, pos := 0 } 88).2)
      else (0, ({ data := data, pos := 0 } : FILE))).2
      = fseek_end { data := data, pos := 0 } := by
    split <;> rfl
  rw [main_loop]
  simp only [fopen_rb, hfile, Option.map_some']
  rw [hstart, hdata, hsz]
  simp only [halloc, Bool.true_eq_false, if_false, store_whole_tail]
  have htake : ∀ s : Nat, List.take (data.length - s) (List.drop s data) = List.drop s data :=
    fun s => List.take_of_length_le (by simp)
  simp [fflush, fwrite, after_all, content, htake]

theorem main_loop_missing (p out : String) (names : List (Option String)) (i : Nat) (w : World)
    (hfile : w.files p = none) :
    main_loop (some p :: names) i { path := out, pending := [] } w =
      (1, after_all w out [] [p]) := by
  rw [main_loop]
  simp [fopen_rb, hfile, fclose, fflush, after_all, content]

theorem main_loop_done (out : String) (i : Nat) (w : World) :
    main_loop [] i { path := out, pending := [] } w = (0, after_all w out [] []) := by
  rw [main_loop]
  simp [fclose, fflush, after_all, content]

theorem after_all_nil (w : World) (out : String) (h : w.files out ≠ none) :
    after_all w out [] [] = w := by
  obtain ⟨c, hc⟩ := Option.ne_none_iff_exists'.mp h
  cases w with
  | mk files writable calloc_ok trace =>
    simp only [after_all, content, List.append_nil, List.map_nil, World.mk.injEq, and_true,
      true_and]
    funext q
    by_cases hq : q = out
    · subst hq; simp at hc; simp [hc]
    · simp [hq]

theorem after_all_after_all (w : World) (out : String) (b1 b2 : List Byte)
    (ps1 ps2 : List String) :
    after_all (after_all w out b1 ps1) out b2 ps2 = after_all w out (b1 ++ b2) (ps1 ++ ps2) := by
  simp only [after_all, content, World.mk.injEq, and_true, true_and, List.map_append,
    List.append_assoc]
  funext q
  by_cases hq : q = out <;> simp [hq]

theorem content_after_all (w : World) (out q : String) (b : List Byte) (ps : List String)
    (hq : q ≠ out) : content (after_all w out b ps) q = content w q := by
  simp [content, after_all, hq]

theorem tails_cons (w : World) (p : String) (ps : List String) :
    tails w (p :: ps) = (content w p).drop (skip_offset (content w p)) ++ tails w ps := by
  simp [tails]

theorem tails_congr (w1 w2 : World) (ps : List String)
    (h : ∀ p ∈ ps, content w1 p = content w2 p) : tails w1 ps = tails w2 ps := by
  induction ps with
  | nil => simp [tails]
  | cons p ps ih =>
    rw [tails_cons, tails_cons, h p (List.mem_cons_self _ _),
      ih fun q hq => h q (List.mem_cons_of_mem _ hq)]

theorem files_after_all (w : World) (out q : String) (b : List Byte) (ps : List String)
    (hq : q ≠ out) : (after_all w out b ps).files q = w.files q := by
  simp [after_all, hq]

theorem files_after_all_out (w : World) (out : String) (b : List Byte) (ps : List String) :
    (after_all w out b ps).files out = some (content w out ++ b) := by
  simp [after_all]

theorem content_of_some (w : World) (p : String) (h : w.files p ≠ none) :
    w.files p = some (content w p) := by
  obtain ⟨c, hc⟩ := Option.ne_none_iff_exists'.mp h
  simp [content, hc]

/-- The rounds of the loop on later inputs that can all be opened, are at
least as long as their skip offsets and whose buffers can be allocated. -/
theorem main_loop_tails (out : String) (ps : List String) (names : List (Option String)) :
    ∀ (i : Nat) (w : World), i ≠ 0 → w.files out ≠ none → out ∉ ps →
      (∀ p ∈ ps, w.files p ≠ none) →
      (∀ p ∈ ps, skip_offset (content w p) ≤ (content w p).length) →
      (∀ p ∈ ps, w.calloc_ok ((content w p).length - skip_offset (content w p)) = true) →
      main_loop (ps.map some ++ names) i { path := out, pending := [] } w =
        main_loop names (i + ps.length) { path := out, pending := [] }
          (after_all w out (tails w ps) ps) := by
  induction ps with
  | nil =>
    intro i w _ hopen _ _ _ _
    simp only [tails, List.map_nil, List.flatten_nil, after_all_nil w out hopen]
    rfl
  | cons p ps ih =>
    intro i w hi hopen hout hex hlen halloc
    have hp : p ≠ out := fun h => hout (h ▸ List.mem_cons_self _ _)
    have hps : out ∉ ps := fun h => hout (List.mem_cons_of_mem _ h)
    have hne : ∀ q ∈ ps, q ≠ out := fun q hq h => hps (h ▸ hq)
    have hfile := content_of_some w p (hex p (List.mem_cons_self _ _))
    have hl := hlen p (List.mem_cons_self _ _)
    have ha := halloc p (List.mem_cons_self _ _)
    rw [List.map_cons, List.cons_append,
      main_loop_copy p out _ i w (content w p) hfile (by simpa [hi] using hl)
        (by simpa [hi] using ha)]
    simp only [ne_eq, hi, not_false_eq_true, if_true]
    rw [ih (i + 1) _ (by omega) (by rw [files_after_all_out]; simp) hps
      (fun q hq => by
        rw [files_after_all _ _ _ _ _ (hne q hq)]
        exact hex q (List.mem_cons_of_mem _ hq))
      (fun q hq => by
        rw [content_after_all _ _ _ _ _ (hne q hq)]
        exact hlen q (List.mem_cons_of_mem _ hq))
      (fun q hq => by
        rw [content_after_all _ _ _ _ _ (hne q hq)]
        exact halloc q (List.mem_cons_of_mem _ hq))]
    rw [after_all_after_all, tails_cons,
      tails_congr _ w ps fun q hq => content_after_all _ _ _ _ _ (hne q hq)]
    simp only [List.singleton_append, List.length_cons]
    rw [show i + 1 + ps.length = i + (ps.length + 1) by omega]

/-- The whole loop, from the first input on, ahead of further entries. -/
theorem main_loop_inputs (out first : String) (rest : List String)
    (names : List (Option String)) (w : World)
    (hout : out ∉ first :: rest) (hex : ∀ p ∈ first :: rest, w.files p ≠ none)
    (hlen : ∀ p ∈ rest, skip_offset (content w p) ≤ (content w p).length)
    (ha1 : w.calloc_ok (content w first).length = true)
    (ha2 : ∀ p ∈ rest, w.calloc_ok ((content w p).length - skip_offset (content w p)) = true) :
    main_loop ((first :: rest).map some ++ names) 0 { path := out, pending := [] } w =
      main_loop names (first :: rest).length { path := out, pending := [] }
        (after_all w out (content w first ++ tails w rest) (first :: rest)) := by
  have hp : first ≠ out := fun h => hout (h ▸ List.mem_cons_self _ _)
  have hps : out ∉ rest := fun h => hout (List.mem_cons_of_mem _ h)
  have hne : ∀ q ∈ rest, q ≠ out := fun q hq h => hps (h ▸ hq)
  have hfile := content_of_some w first (hex first (List.mem_cons_self _ _))
  rw [List.map_cons, List.cons_append,
    main_loop_copy first out _ 0 w (content w first) hfile (by simp) (by simpa using ha1)]
  simp only [ne_eq, not_true_eq_false, if_false, List.drop_zero]
  rw [main_loop_tails out rest names (0 + 1) _ (by omega)
      (by rw [files_after_all_out]; simp) hps
      (fun q hq => by
        rw [files_after_all _ _ _ _ _ (hne q hq)]
        exact hex q (List.mem_cons_of_mem _ hq))
      (fun q hq => by
        rw [content_after_all _ _ _ _ _ (hne q hq)]
        exact hlen q hq)
      (fun q hq => by
        rw [content_after_all _ _ _ _ _ (hne q hq)]
        exact ha2 q hq)]
  rw [after_all_after_all,
    tails_congr _ w rest fun q hq => content_after_all _ _ _ _ _ (hne q hq)]
  simp only [List.singleton_append, List.length_cons]
  rw [show 0 + 1 + rest.length = rest.length + 1 by omega]

theorem files_opened (w : World) (out q : String) (hq : q ≠ out) :
    (opened w out).files q = w.files q := by
  simp [opened, hq]

theorem content_opened (w : World) (out q : String) (hq : q ≠ out) :
    content (opened w out) q = content w q := by
  simp [content, opened, hq]

/-- A run whose command line has at least two arguments and whose output
path can be opened goes on into the loop with the output truncated. -/
theorem main_enters_loop (argv : List String) (w : World) (st : Args) (out : String)
    (h3 : ¬ argv.length < 3) (hparse : parse_args argv = some st)
    (hout : st.output_filename = some out) (hw : w.writable out = true) :
    main argv w = some (main_loop st.inputs 0 { path := out, pending := [] } (opened w out)) := by
  simp [main, h3, hparse, hout, fopen_wb, hw, opened]

theorem three_args_of_inputs (argv : List String) (st : Args) (hparse : parse_args argv = some st)
    (hne : st.inputs ≠ []) : ¬ argv.length < 3 :=
  fun h => hne (parse_args_short argv h st hparse)

/-- The whole loop after the output was opened, with the conditions stated
on the environment the run started in. -/
theorem main_loop_opened (out first : String) (rest : List String)
    (names : List (Option String)) (w : World)
    (hout : out ∉ first :: rest) (hex : ∀ p ∈ first :: rest, w.files p ≠ none)
    (hlen : ∀ p ∈ rest, skip_offset (content w p) ≤ (content w p).length)
    (ha1 : w.calloc_ok (content w first).length = true)
    (ha2 : ∀ p ∈ rest, w.calloc_ok ((content w p).length - skip_offset (content w p)) = true) :
    main_loop ((first :: rest).map some ++ names) 0 { path := out, pending := [] }
        (opened w out) =
      main_loop names (first :: rest).length { path := out, pending := [] }
        (after_all (opened w out) out (content w first ++ tails w rest) (first :: rest)) := by
  have hne : ∀ q ∈ first :: rest, q ≠ out := fun q hq h => hout (h ▸ hq)
  have hne2 : ∀ q ∈ rest, q ≠ out := fun q hq => hne q (List.mem_cons_of_mem _ hq)
  have hc1 := content_opened w out first (hne first (List.mem_cons_self _ _))
  rw [main_loop_inputs out first rest names (opened w out) hout
      (fun q hq => by rw [files_opened _ _ _ (hne q hq)]; exact hex q hq)
      (fun q hq => by rw [content_opened _ _ _ (hne2 q hq)]; exact hlen q hq)
      (by rw [hc1]; exact ha1)
      (fun q hq => by rw [content_opened _ _ _ (hne2 q hq)]; exact ha2 q hq)]
  rw [hc1, tails_congr _ w rest fun q hq => content_opened _ _ _ (hne2 q hq)]

theorem files_out_after_opened (w : World) (out : String) (b : List Byte) (ps : List String) :
    (after_all (after_all (opened w out) out b ps) out [] []).files out = some b := by
  simp [after_all, content, opened]

/-! ## The frame boundary of the specification -/

theorem round_up4_least (n : Nat) : IsLeast {m | 4 ∣ m ∧ n ≤ m} (round_up4 n) := by
  unfold round_up4
  refine ⟨⟨?_, ?_⟩, fun m hm => ?_⟩
  · split <;> omega
  · split <;> omega
  · have h1 : 4 ∣ m := hm.1
    have h2 : n ≤ m := hm.2
    split <;> omega

theorem start_of_eq (n : Nat) : start_of n = round_up4 (92 + n) % 2 ^ 32 := by
  unfold start_of round_up4
  simp only []
  split <;> split <;> omega

/-- The skip offset the program computes is the frame boundary of the
specification reduced modulo `2 ^ 32`. -/
theorem skip_offset_eq_boundary32 (data : List Byte) : skip_offset data = boundary32 data := by
  unfold skip_offset boundary32 boundary declared_length
  rw [read_xdr_int_val, start_of_eq]

theorem tails_eq_boundary32 (w : World) (ps : List String) :
    tails w ps = (ps.map fun p => (content w p).drop (boundary32 (content w p))).flatten := by
  unfold tails
  simp only [skip_offset_eq_boundary32]

theorem expected_eq_concatenation (w : World) (ps : List String) :
    expected w ps = concatenation w ps := by
  cases ps with
  | nil => rfl
  | cons first rest => simp only [expected, concatenation, tails_eq_boundary32]

/-- A run on inputs that exist, with an output path different from them that
can be opened, later inputs at least as long as their boundaries modulo
`2 ^ 32` and buffers that can be allocated. -/
theorem main_concat (argv : List String) (w : World) (st : Args) (out first : String)
    (rest : List String) (hparse : parse_args argv = some st)
    (hout : st.output_filename = some out) (hin : st.inputs = (first :: rest).map some)
    (hdiff : out ∉ first :: rest)
    (hex : ∀ p ∈ first :: rest, w.files p ≠ none)
    (hlen : ∀ p ∈ rest, boundary32 (content w p) ≤ (content w p).length)
    (hw : w.writable out = true)
    (ha1 : w.calloc_ok (content w first).length = true)
    (ha2 : ∀ p ∈ rest, w.calloc_ok ((content w p).length - boundary32 (content w p)) = true) :
    ∃ w2, main argv w = some (0, w2) ∧
      w2.files out = some (concatenation w (first :: rest)) := by
  have h3 := three_args_of_inputs argv st hparse (by rw [hin]; simp)
  simp only [← skip_offset_eq_boundary32] at hlen ha2
  refine ⟨after_all (after_all (opened w out) out (content w first ++ tails w rest)
    (first :: rest)) out [] [], ?_, ?_⟩
  · rw [main_enters_loop argv w st out h3 hparse hout hw, hin,
      ← List.append_nil (List.map some (first :: rest)),
      main_loop_opened out first rest [] w hdiff hex hlen ha1 ha2, main_loop_done]
  · rw [files_out_after_opened, ← expected_eq_concatenation]
    rfl

/-! ## Claims about the concatenation -/

theorem big_body_length : big_body.length = 2 ^ 32 := by
  unfold big_body
  exact List.length_replicate _ _

theorem big_b_length : big_b.length = 2 ^ 32 + 92 := by
  unfold big_b
  rw [List.length_append, big_body_length]
  rfl

theorem byteAt_big_b (k : Nat) (hk : k < 92) : byteAt big_b k = byteAt big_head k := by
  unfold byteAt big_b
  rw [List.getD_eq_getElem?_getD, List.getD_eq_getElem?_getD,
    List.getElem?_append_left (by simpa [big_head] using hk)]

theorem declared_length_big_b : declared_length big_b = 4294967295 := by
  unfold declared_length
  rw [byteAt_big_b 88 (by omega), byteAt_big_b 89 (by omega), byteAt_big_b 90 (by omega),
    byteAt_big_b 91 (by omega)]
  decide

theorem boundary_big_b : boundary big_b = 2 ^ 32 + 92 ∧ boundary32 big_b = 92 := by
  unfold boundary32 boundary
  rw [declared_length_big_b]
  decide

theorem drop_big_b : big_b.drop 92 = big_body := by
  unfold big_b
  exact List.drop_left' rfl

/-- C1, as stated, fails: the later file `b` of `2 ^ 32 + 92` bytes declares
the payload length `2 ^ 32 - 1`, so that 92 plus the field, rounded up to a
multiple of 4, is `2 ^ 32 + 92`, the length of the file, and nothing of `b`
lies behind that offset; the run on `-f a b -o out` writes `a` and then the
`2 ^ 32` bytes of `b` from offset 92 on. -/
theorem concat_skips_modulo :
    boundary big_b = 2 ^ 32 + 92 ∧ boundary big_b ≤ big_b.length ∧
      big_b.drop (boundary big_b) = [] ∧
      (∃ w2, main ["xtcat", "-f", "a", "b", "-o", "out"] big_world = some (0, w2) ∧
        w2.files "out" = some (demo_a ++ big_b.drop 92)) ∧
      demo_a ++ big_b.drop 92 ≠ demo_a ++ big_b.drop (boundary big_b) := by
  have hb := boundary_big_b
  have hl := big_b_length
  have hd : big_b.drop (boundary big_b) = [] :=
    List.drop_eq_nil_of_le (by rw [hb.1, hl])
  have hca : content big_world "a" = demo_a := rfl
  have hcb : content big_world "b" = big_b := rfl
  refine ⟨hb.1, by rw [hb.1, hl], hd, ?_, ?_⟩
  · have h := main_concat ["xtcat", "-f", "a", "b", "-o", "out"] big_world
      ⟨some "out", some "a" :: some "b" :: List.replicate 98 none, 3⟩ "out" "a" ["b"]
      (by decide) rfl (by decide) (by decide)
      (by
        intro p hp
        simp only [List.mem_cons, List.mem_singleton, List.not_mem_nil, or_false] at hp
        rcases hp with rfl | rfl
        · exact fun h => Option.noConfusion h
        · exact fun h => Option.noConfusion h)
      (by
        intro p hp
        simp only [List.mem_singleton] at hp
        subst hp
        rw [hcb, hb.2, hl]
        omega)
      rfl rfl (fun _ _ => rfl)
    obtain ⟨w2, h1, h2⟩ := h
    refine ⟨w2, h1, ?_⟩
    rw [h2]
    simp only [concatenation, List.map_cons, List.map_nil, List.flatten_cons, List.flatten_nil,
      List.append_nil, hca, hcb, hb.2]
  · intro h
    have h2 := congrArg List.length h
    rw [hd, drop_big_b, List.length_append, List.length_append, big_body_length] at h2
    simp at h2

/-- C1, amended: for every list of inputs `first :: rest` that exist (so also
for `N ≥ 2` of them) and an output path different from every input that can
be opened, where each later file is at least as long as its skip offset `S`,
92 plus the big-endian value of its bytes 88 to 91 rounded up to a multiple
of 4 and reduced modulo `2 ^ 32`, and the buffers can be allocated, the run
returns 0 and the output file is the first file followed by every later file
from its `S` on, in command-line order, whatever the output path held
before. -/
theorem concat_output (argv : List String) (w : World) (st : Args) (out first : String)
    (rest : List String) (hparse : parse_args argv = some st)
    (hout : st.output_filename = some out) (hin : st.inputs = (first :: rest).map some)
    (hdiff : out ∉ first :: rest)
    (hex : ∀ p ∈ first :: rest, w.files p ≠ none)
    (hlen : ∀ p ∈ rest, boundary32 (content w p) ≤ (content w p).length)
    (hw : w.writable out = true)
    (ha1 : w.calloc_ok (content w first).length = true)
    (ha2 : ∀ p ∈ rest, w.calloc_ok ((content w p).length - boundary32 (content w p)) = true) :
    (∃ w2, main argv w = some (0, w2) ∧
        w2.files out = some (content w first ++
          (rest.map fun p => (content w p).drop (boundary32 (content w p))).flatten)) ∧
      ∀ p ∈ rest,
        IsLeast {m | 4 ∣ m ∧ 92 + declared_length (content w p) ≤ m} (boundary (content w p)) ∧
          boundary32 (content w p) = boundary (content w p) % 2 ^ 32 :=
  ⟨main_concat argv w st out first rest hparse hout hin hdiff hex hlen hw ha1 ha2,
    fun _ _ => ⟨round_up4_least _, rfl⟩⟩

theorem concat_output_witness :
    parse_args ["xtcat", "-f", "a", "b", "-o", "out"]
        = some ⟨some "out", some "a" :: some "b" :: List.replicate 98 none, 3⟩ ∧
      "out" ∉ ["a", "b"] ∧
      (∀ p ∈ ["b"], boundary32 (content demo_world p) ≤ (content demo_world p).length) ∧
      boundary32 (content demo_world "b") = 96 ∧
      concatenation demo_world ["a", "b"] = [1, 2, 3, 7, 8] ∧
      ∃ w2, main ["xtcat", "-f", "a", "b", "-o", "out"] demo_world = some (0, w2) ∧
        w2.files "out" = some (concatenation demo_world ["a", "b"]) :=
  ⟨by decide, by decide, by decide, by decide, by decide,
    (concat_output ["xtcat", "-f", "a", "b", "-o", "out"] demo_world
      ⟨some "out", some "a" :: some "b" :: List.replicate 98 none, 3⟩ "out" "a" ["b"]
      (by decide) rfl (by decide) (by decide) (by decide) (by decide) (by decide) (by decide)
      (by decide)).1⟩

/-- C2: for every content of a single input file, with an output path
different from the input path that can be opened and a buffer of the file's
length that can be allocated, the run returns 0 and the output file is
byte for byte the input file. -/
theorem single_input_identity (argv : List String) (w : World) (st : Args) (out inp : String)
    (data : List Byte) (hparse : parse_args argv = some st)
    (hout : st.output_filename = some out) (hin : st.inputs = [some inp])
    (hdiff : out ≠ inp) (hfile : w.files inp = some data) (hw : w.writable out = true)
    (ha : w.calloc_ok data.length = true) :
    ∃ w2, main argv w = some (0, w2) ∧ w2.files out = some data := by
  have h3 := three_args_of_inputs argv st hparse (by rw [hin]; simp)
  have hc : content w inp = data := by simp [content, hfile]
  refine ⟨_, ?_, files_out_after_opened w out _ [inp]⟩
  rw [main_enters_loop argv w st out h3 hparse hout hw, hin,
    show [some inp] = List.map some [inp] ++ [] from rfl,
    main_loop_opened out inp [] [] w (by simpa using hdiff)
      (by simp [hfile]) (by simp) (by rw [hc]; exact ha) (by simp),
    main_loop_done, hc]
  simp [tails]

theorem single_input_identity_witness :
    parse_args ["xtcat", "-f", "a", "-o", "out"]
        = some ⟨some "out", some "a" :: List.replicate 99 none, 2⟩ ∧
      "out" ≠ "a" ∧ demo_world.files "a" = some [1, 2, 3] ∧
      ∃ w2, main ["xtcat", "-f", "a", "-o", "out"] demo_world = some (0, w2) ∧
        w2.files "out" = some [1, 2, 3] :=
  ⟨by decide, by decide, by decide,
    single_input_identity ["xtcat", "-f", "a", "-o", "out"] demo_world
      ⟨some "out", some "a" :: List.replicate 99 none, 2⟩ "out" "a" [1, 2, 3]
      (by decide) rfl (by decide) (by decide) (by decide) (by decide) (by decide)⟩

/-- C5, as stated, fails: on `-f a b missing.xtc -o a` the first file that
cannot be opened is the third input and the two before it exist and are
well-formed, yet the output file `a`, truncated when it was opened, holds the
two bytes `7 8` and not the concatenation `1 2 3 7 8` of the first two
inputs. -/
theorem output_among_inputs_not_concatenated :
    demo_world.files "missing.xtc" = none ∧
      concatenation demo_world ["a", "b"] = [1, 2, 3, 7, 8] ∧
      (main ["xtcat", "-f", "a", "b", "missing.xtc", "-o", "a"] demo_world).map
        (fun r => (r.1, r.2.files "a")) = some (1, some [7, 8]) := by
  decide

/-- C5, amended: when the inputs are `pre`, then a file that cannot be
opened, then `post`, the files of `pre` exist and are well-formed (every
later one at least as long as its skip offset, the frame boundary modulo
`2 ^ 32`), the output path differs from the files of `pre` and from the
missing one, can be opened, and the buffers can be allocated, the run
returns 1 and the output file holds exactly the concatenation of `pre`
(nothing when `pre` is empty); no file of `post` is opened, whatever it
contains. -/
theorem missing_input_stops (argv : List String) (w : World) (st : Args) (out missing : String)
    (pre post : List String) (hparse : parse_args argv = some st)
    (hout : st.output_filename = some out)
    (hin : st.inputs = (pre ++ missing :: post).map some)
    (hmiss : w.files missing = none) (hmo : missing ≠ out) (hdiff : out ∉ pre)
    (hex : ∀ p ∈ pre, w.files p ≠ none)
    (hlen : ∀ p ∈ pre.tail, boundary32 (content w p) ≤ (content w p).length)
    (hw : w.writable out = true)
    (ha1 : ∀ p ∈ pre.head?, w.calloc_ok (content w p).length = true)
    (ha2 : ∀ p ∈ pre.tail,
      w.calloc_ok ((content w p).length - boundary32 (content w p)) = true) :
    ∃ w2, main argv w = some (1, w2) ∧ w2.files out = some (concatenation w pre) ∧
      w2.trace = w.trace ++ Event.open_write (some out) ::
        (pre ++ [missing]).map fun p => Event.open_read (some p) := by
  have h3 := three_args_of_inputs argv st hparse (by rw [hin]; simp)
  simp only [← skip_offset_eq_boundary32] at hlen ha2
  rw [main_enters_loop argv w st out h3 hparse hout hw, hin, ← expected_eq_concatenation]
  cases pre with
  | nil =>
    rw [List.nil_append, List.map_cons,
      main_loop_missing missing out _ 0 _ (by rw [files_opened _ _ _ hmo]; exact hmiss)]
    exact ⟨_, rfl, by simp [after_all, content, opened, expected],
      by simp [after_all, opened]⟩
  | cons first rest =>
    have e : List.map some (first :: rest ++ missing :: post)
        = List.map some (first :: rest) ++ (some missing :: List.map some post) := by simp
    rw [e, main_loop_opened out first rest _ w hdiff hex (by simpa using hlen)
        (by simpa using ha1) (by simpa using ha2),
      main_loop_missing missing out _ _ _
        (by rw [files_after_all _ _ _ _ _ hmo, files_opened _ _ _ hmo]; exact hmiss)]
    exact ⟨_, rfl, by simp [after_all, content, opened, expected],
      by simp [after_all, opened]⟩

theorem missing_input_stops_witness :
    parse_args ["xtcat", "-f", "a", "b", "missing.xtc", "b", "-o", "out"]
        = some ⟨some "out",
            some "a" :: some "b" :: some "missing.xtc" :: some "b" :: List.replicate 96 none,
            5⟩ ∧
      demo_world.files "missing.xtc" = none ∧ "missing.xtc" ≠ "out" ∧ "out" ∉ ["a", "b"] ∧
      concatenation demo_world ["a", "b"] = [1, 2, 3, 7, 8] ∧
      ∃ w2, main ["xtcat", "-f", "a", "b", "missing.xtc", "b", "-o", "out"] demo_world
          = some (1, w2) ∧
        w2.files "out" = some (concatenation demo_world ["a", "b"]) ∧
        w2.trace = demo_world.trace ++ Event.open_write (some "out") ::
          (["a", "b"] ++ ["missing.xtc"]).map fun p => Event.open_read (some p) :=
  ⟨by decide, by decide, by decide, by decide, by decide,
    missing_input_stops ["xtcat", "-f", "a", "b", "missing.xtc", "b", "-o", "out"] demo_world
      ⟨some "out",
        some "a" :: some "b" :: some "missing.xtc" :: some "b" :: List.replicate 96 none, 5⟩
      "out" "missing.xtc" ["a", "b"] ["b"]
      (by decide) rfl (by decide) (by decide) (by decide) (by decide) (by decide) (by decide)
      (by decide) (by decide) (by decide)⟩

/-! ## Claims about the files a run leaves alone -/

theorem fopen_rb_files (w : World) (name : Option String) :
    (fopen_rb w name).2.files = w.files := by
  cases name <;> rfl

/-- A round of the loop either leaves with status 1 after closing the
output, or writes some buffer, flushes and goes on to the next round. -/
theorem main_loop_round (name : Option String) (names : List (Option String)) (i : Nat)
    (output : OStream) (w : World) :
    main_loop (name :: names) i output w = (1, fclose output (fopen_rb w name).2) ∨
      ∃ (buffer : List Byte) (size : Nat),
        main_loop (name :: names) i output w =
          main_loop names (i + 1) (fflush (fwrite output buffer size) (fopen_rb w name).2).1
            (fflush (fwrite output buffer size) (fopen_rb w name).2).2 := by
  rw [main_loop]
  simp only []
  cases (fopen_rb w name).1 with
  | none => exact Or.inl rfl
  | some input =>
    simp only []
    by_cases hi : i = 0
    · simp only [hi, ne_eq, not_true_eq_false, if_false]
      split
      · exact Or.inl rfl
      · exact Or.inr ⟨_, _, rfl⟩
    · simp only [hi, ne_eq, not_false_eq_true, if_true]
      split
      · exact Or.inl rfl
      · exact Or.inr ⟨_, _, rfl⟩

/-- The loop changes no file but the one the output stream writes to. -/
theorem main_loop_frame (names : List (Option String)) :
    ∀ (i : Nat) (output : OStream) (w : World) (q : String), q ≠ output.path →
      (main_loop names i output w).2.files q = w.files q := by
  induction names with
  | nil =>
    intro i output w q hq
    rw [main_loop]
    simp [fclose, fflush, hq]
  | cons name names ih =>
    intro i output w q hq
    rcases main_loop_round name names i output w with h | ⟨buffer, size, h⟩
    · rw [h]
      simp [fclose, fflush, hq, fopen_rb_files]
    · rw [h, ih _ _ _ q (by simpa [fflush, fwrite] using hq)]
      simp [fflush, fwrite, hq, fopen_rb_files]

/-- C10, as stated, fails: on `xtcat -f a -o a` the input file `a`, three
bytes long before the run, is empty after it. -/
theorem input_truncated_when_output :
    (parse_args ["xtcat", "-f", "a", "-o", "a"]).map Args.inputs = some [some "a"] ∧
      demo_world.files "a" = some [1, 2, 3] ∧
      (main ["xtcat", "-f", "a", "-o", "a"] demo_world).map (fun r => (r.1, r.2.files "a"))
        = some (0, some []) := by
  decide

/-- C10, amended: a run changes the content of no file but the one at the
output path; every input file whose path is not the output path has, after
the run, the content it had before. -/
theorem files_off_output_unchanged (argv : List String) (w w2 : World) (code : Int)
    (q : String) (hrun : main argv w = some (code, w2))
    (hq : (parse_args argv).bind Args.output_filename ≠ some q) :
    w2.files q = w.files q := by
  by_cases h3 : argv.length < 3
  · simp only [main, h3, if_true, Option.some.injEq, Prod.mk.injEq] at hrun
    rw [← hrun.2]
  · cases hp : parse_args argv with
    | none => simp [main, h3, hp] at hrun
    | some st =>
      simp only [hp, Option.some_bind] at hq
      cases ho : st.output_filename with
      | none =>
        simp only [main, h3, hp, ho, fopen_wb, if_false, Option.some.injEq,
          Prod.mk.injEq] at hrun
        rw [← hrun.2]
      | some out =>
        have hne : q ≠ out := fun h => hq (by rw [ho, h])
        by_cases hw : w.writable out = true
        · rw [main_enters_loop argv w st out h3 hp ho hw, Option.some.injEq] at hrun
          have := main_loop_frame st.inputs 0 { path := out, pending := [] } (opened w out) q hne
          rw [hrun, files_opened _ _ _ hne] at this
          exact this
        · have hw2 : w.writable out = false := by simpa using hw
          simp [main, h3, hp, ho, fopen_wb, hw2] at hrun
          rw [← hrun.2]

theorem files_off_output_unchanged_witness :
    (parse_args ["xtcat", "-f", "a", "b", "-o", "a"]).bind Args.output_filename ≠ some "b" ∧
      (main ["xtcat", "-f", "a", "b", "-o", "a"] demo_world).map (fun r => (r.1, r.2.files "a"))
        = some (0, some [7, 8]) ∧
      ((main ["xtcat", "-f", "a", "b", "-o", "a"] demo_world).getD (1, demo_world)).2.files "b"
        = demo_world.files "b" :=
  ⟨by decide, by decide,
    files_off_output_unchanged ["xtcat", "-f", "a", "b", "-o", "a"] demo_world
      ((main ["xtcat", "-f", "a", "b", "-o", "a"] demo_world).getD (1, demo_world)).2
      ((main ["xtcat", "-f", "a", "b", "-o", "a"] demo_world).getD (1, demo_world)).1
      "b" (by rfl) (by decide)⟩

/-! ## Claims about what the skip offset depends on -/

/-- C11: two later inputs whose bytes at the offsets 88, 89, 90 and 91 are
equal, a byte the file does not have counting as 0, get the same skip offset,
whatever their other bytes and their lengths are: no other field of an input
is interpreted. -/
theorem skip_offset_reads_only_field (d1 d2 : List Byte)
    (h : ∀ k, k < 4 → byteAt d1 (88 + k) = byteAt d2 (88 + k)) :
    skip_offset d1 = skip_offset d2 ∧
      ∀ i, i ≠ 0 →
        (round_start i { data := d1, pos := 0 }).1 = (round_start i { data := d2, pos := 0 }).1 := by
  have hs : skip_offset d1 = skip_offset d2 := by
    unfold skip_offset
    rw [read_xdr_int_val, read_xdr_int_val]
    have h0 := h 0 (by omega)
    have h1 := h 1 (by omega)
    have h2 := h 2 (by omega)
    have h3 := h 3 (by omega)
    simp only [Nat.add_zero] at h0
    simp only [h0, h1, h2, h3]
  refine ⟨hs, fun i hi => ?_⟩
  simp only [round_start, hi, ne_eq, not_false_eq_true, if_true]
  exact hs

theorem skip_offset_reads_only_field_witness :
    (∀ k, k < 4 → byteAt [] (88 + k) = byteAt (List.replicate 88 7 ++ [0]) (88 + k)) ∧
      skip_offset [] = skip_offset (List.replicate 88 7 ++ [0]) :=
  ⟨by decide,
    (skip_offset_reads_only_field [] (List.replicate 88 7 ++ [0]) (by decide)).1⟩

/-- C16: for every value `L` of the payload-length field, also where
`92 + L` or the padding wraps around `2 ^ 32`, the skip offset is a 32-bit
value, a multiple of 4, and the wrapped raw offset `(92 + L) % 2 ^ 32` plus
0, 1, 2 or 3, taken modulo `2 ^ 32`. -/
theorem skip_offset_aligned (L : Nat) :
    start_of L < 2 ^ 32 ∧ 4 ∣ start_of L ∧
      ∃ d, d < 4 ∧ start_of L = ((92 + L) % 2 ^ 32 + d) % 2 ^ 32 := by
  unfold start_of
  simp only []
  split
  · refine ⟨by omega, by omega, 4 - (L + 92) % 2 ^ 32 % 4, by omega, ?_⟩
    rw [Nat.add_comm 92 L]
  · refine ⟨by omega, by omega, 0, by omega, ?_⟩
    omega

/-! ## Claims about the remaining length -/

/-- A round of the loop on a file that can be opened: the one test between
`filelen` and its use as the buffer size is the result of `calloc`. -/
theorem main_loop_some (p : String) (names : List (Option String)) (i : Nat) (output : OStream)
    (w : World) (data : List Byte) (hfile : w.files p = some data) :
    main_loop (some p :: names) i output w =
      if w.calloc_ok (to_size_t (filelen_of i { data := data, pos := 0 })) = false then
        (1, fclose output (fopen_rb w (some p)).2)
      else
        main_loop names (i + 1)
          (fflush (fwrite output (buffer_of i { data := data, pos := 0 })
            (to_size_t (filelen_of i { data := data, pos := 0 }))) (fopen_rb w (some p)).2).1
          (fflush (fwrite output (buffer_of i { data := data, pos := 0 })
            (to_size_t (filelen_of i { data := data, pos := 0 }))) (fopen_rb w (some p)).2).2 := by
  rw [main_loop]
  simp only [fopen_rb, hfile, Option.map_some']
  rfl

theorem start_of_lt (number : Nat) : start_of number < 2 ^ 32 := by
  unfold start_of
  simp only []
  split <;> omega

theorem filelen_of_later (data : List Byte) (i : Nat) (hi : i ≠ 0) :
    filelen_of i { data := data, pos := 0 } = (data.length : Int) - (skip_offset data : Int) := by
  simp only [filelen_of, round_start, hi, ne_eq, not_false_eq_true, if_true]
  rfl

/-- C15: for a later input of length `n` with skip offset `S` the `long`
the program computes is the integer `n - S`: the number of bytes from `S` to
the end of the file when `n ≥ S`, negative exactly when `n < S`.  Its
conversion to `size_t`, for a negative value `2 ^ 64 - (S - n)`, is the
buffer size, and the result of `calloc` is the one test in the round. -/
theorem remaining_length (data : List Byte) (i : Nat) (hi : i ≠ 0) :
    filelen_of i { data := data, pos := 0 } = (data.length : Int) - (skip_offset data : Int) ∧
      (skip_offset data ≤ data.length →
        filelen_of i { data := data, pos := 0 }
          = ((data.drop (skip_offset data)).length : Int)) ∧
      (filelen_of i { data := data, pos := 0 } < 0 ↔ data.length < skip_offset data) ∧
      (data.length < skip_offset data →
        to_size_t (filelen_of i { data := data, pos := 0 })
          = 2 ^ 64 - (skip_offset data - data.length)) ∧
      ∀ (p : String) (names : List (Option String)) (output : OStream) (w : World),
        w.files p = some data →
        main_loop (some p :: names) i output w =
          if w.calloc_ok (to_size_t (filelen_of i { data := data, pos := 0 })) = false then
            (1, fclose output (fopen_rb w (some p)).2)
          else
            main_loop names (i + 1)
              (fflush (fwrite output (buffer_of i { data := data, pos := 0 })
                (to_size_t (filelen_of i { data := data, pos := 0 })))
                (fopen_rb w (some p)).2).1
              (fflush (fwrite output (buffer_of i { data := data, pos := 0 })
                (to_size_t (filelen_of i { data := data, pos := 0 })))
                (fopen_rb w (some p)).2).2 := by
  have hf := filelen_of_later data i hi
  have hs : skip_offset data < 2 ^ 32 := start_of_lt _
  refine ⟨hf, fun h => ?_, ?_, fun h => ?_, fun p names output w hfile =>
    main_loop_some p names i output w data hfile⟩
  · rw [hf, List.length_drop]
    omega
  · rw [hf]
    omega
  · rw [hf]
    unfold to_size_t
    rw [if_pos (by omega)]
    omega

theorem remaining_length_witness :
    (1 : Nat) ≠ 0 ∧ filelen_of 1 { data := [1, 2, 3], pos := 0 } = -89 ∧
      to_size_t (filelen_of 1 { data := [1, 2, 3], pos := 0 }) = 2 ^ 64 - 89 ∧
      (filelen_of 1 { data := [1, 2, 3], pos := 0 } < 0 ↔ [1, 2, 3].length < skip_offset [1, 2, 3]) :=
  ⟨by decide, (remaining_length [1, 2, 3] 1 (by decide)).1.trans (by decide), by decide,
    (remaining_length [1, 2, 3] 1 (by decide)).2.2.1⟩

/-! ## Claims about the exit status -/

/-- C13: when the output path the parser took cannot be opened for writing
(`fopen` returns the null pointer), a run on a command line with at least two
arguments returns 1; the one `fopen` call of the run is the one for the
output, so no input is opened or read, and every file keeps its content. -/
theorem unopenable_output_exits (argv : List String) (w : World) (st : Args)
    (h3 : 3 ≤ argv.length) (hparse : parse_args argv = some st)
    (hfail : (fopen_wb w st.output_filename).1 = none) :
    ∃ w2, main argv w = some (1, w2) ∧ w2.files = w.files ∧
      w2.trace = w.trace ++ [Event.open_write st.output_filename] ∧
      w2.writable = w.writable ∧ w2.calloc_ok = w.calloc_ok := by
  have h : ¬ argv.length < 3 := by omega
  refine ⟨(fopen_wb w st.output_filename).2, ?_, ?_, ?_, ?_, ?_⟩
  · simp only [main, h, if_false, hparse, hfail]
  all_goals
    cases ho : st.output_filename with
    | none => simp [fopen_wb]
    | some out =>
      rw [ho] at hfail
      by_cases hw : w.writable out = true
      · simp [fopen_wb, hw] at hfail
      · simp [fopen_wb, hw]

theorem unopenable_output_exits_witness :
    3 ≤ ["xtcat", "-f", "a", "b", "-o", "locked"].length ∧
      parse_args ["xtcat", "-f", "a", "b", "-o", "locked"]
        = some ⟨some "locked", some "a" :: some "b" :: List.replicate 98 none, 3⟩ ∧
      (fopen_wb demo_world (some "locked")).1 = none ∧
      ∃ w2, main ["xtcat", "-f", "a", "b", "-o", "locked"] demo_world = some (1, w2) ∧
        w2.files = demo_world.files ∧
        w2.trace = demo_world.trace ++ [Event.open_write (some "locked")] ∧
        w2.writable = demo_world.writable ∧ w2.calloc_ok = demo_world.calloc_ok :=
  ⟨by decide, by decide, rfl,
    unopenable_output_exits ["xtcat", "-f", "a", "b", "-o", "locked"] demo_world
      ⟨some "locked", some "a" :: some "b" :: List.replicate 98 none, 3⟩
      (by decide) (by decide) rfl⟩

theorem fflush_files_ne_none (output : OStream) (w : World) (q : String)
    (h : w.files q ≠ none) : (fflush output w).2.files q ≠ none := by
  by_cases hq : q = output.path
  · simp [fflush, hq]
  · simpa [fflush, hq] using h

/-- The loop returns 0 when every input can be opened and every buffer can
be allocated. -/
theorem main_loop_all_ok (names : List String) :
    ∀ (i : Nat) (output : OStream) (w : World), (∀ p ∈ names, w.files p ≠ none) →
      (∀ n, w.calloc_ok n = true) → (main_loop (names.map some) i output w).1 = 0 := by
  induction names with
  | nil =>
    intro i output w _ _
    rw [List.map_nil, main_loop]
  | cons p names ih =>
    intro i output w hex halloc
    have hfile := content_of_some w p (hex p (List.mem_cons_self _ _))
    rw [List.map_cons, main_loop_some p _ i output w _ hfile, if_neg (by simp [halloc])]
    apply ih
    · intro q hq
      apply fflush_files_ne_none
      rw [fopen_rb_files]
      exact hex q (List.mem_cons_of_mem _ hq)
    · intro n
      simpa [fflush, fopen_rb] using halloc n

/-- C14: on a command line with at least two arguments whose output path
can be opened and whose input files all exist, the run returns exit status 0
when buffer allocation succeeds: either every allocation succeeds, or the
output path differs from the inputs, every later input is at least as long
as its skip offset, and the buffers for the first file and for what remains
of the later files can be allocated. -/
theorem success_exit_status (argv : List String) (w : World) (st : Args) (out : String)
    (ins : List String) (h3 : 3 ≤ argv.length) (hparse : parse_args argv = some st)
    (hout : st.output_filename = some out) (hw : w.writable out = true)
    (hin : st.inputs = ins.map some) (hex : ∀ p ∈ ins, w.files p ≠ none)
    (halloc : (∀ n, w.calloc_ok n = true) ∨
      (out ∉ ins ∧
        (∀ p ∈ ins.tail, skip_offset (content w p) ≤ (content w p).length) ∧
        (∀ p ∈ ins.head?, w.calloc_ok (content w p).length = true) ∧
        (∀ p ∈ ins.tail,
          w.calloc_ok ((content w p).length - skip_offset (content w p)) = true))) :
    ∃ w2, main argv w = some (0, w2) := by
  have h : ¬ argv.length < 3 := by omega
  rw [main_enters_loop argv w st out h hparse hout hw, hin]
  rcases halloc with hall | ⟨hdiff, hlen, ha1, ha2⟩
  · have h0 := main_loop_all_ok ins 0 { path := out, pending := [] } (opened w out)
      (fun p hp => by
        by_cases hq : p = out
        · simp [opened, hq]
        · rw [files_opened _ _ _ hq]; exact hex p hp)
      (fun n => by simpa [opened] using hall n)
    exact ⟨(main_loop (ins.map some) 0 { path := out, pending := [] } (opened w out)).2,
      by rw [← h0]⟩
  · cases ins with
    | nil => exact ⟨_, by rw [List.map_nil, main_loop_done]⟩
    | cons first rest =>
      rw [← List.append_nil (List.map some (first :: rest)),
        main_loop_opened out first rest [] w hdiff hex (by simpa using hlen)
          (by simpa using ha1) (by simpa using ha2),
        main_loop_done]
      exact ⟨_, rfl⟩

theorem success_exit_status_witness :
    3 ≤ ["xtcat", "-f", "a", "b", "-o", "out"].length ∧
      parse_args ["xtcat", "-f", "a", "b", "-o", "out"]
        = some ⟨some "out", some "a" :: some "b" :: List.replicate 98 none, 3⟩ ∧
      (∀ p ∈ ["a", "b"], demo_world.files p ≠ none) ∧
      (∀ p ∈ ["a", "b"].tail,
        skip_offset (content demo_world p) ≤ (content demo_world p).length) ∧
      ∃ w2, main ["xtcat", "-f", "a", "b", "-o", "out"] demo_world = some (0, w2) :=
  ⟨by decide, by decide, by decide, by decide,
    success_exit_status ["xtcat", "-f", "a", "b", "-o", "out"] demo_world
      ⟨some "out", some "a" :: some "b" :: List.replicate 98 none, 3⟩ "out" ["a", "b"]
      (by decide) (by decide) rfl (by decide) (by decide) (by decide)
      (Or.inr ⟨by decide, by decide, by decide, by decide⟩)⟩

/-! ## Claims about the parser's bounds and the command line without `-f` -/

/-- Without a recognised `-f` the parser stores nothing and stays idle. -/
theorem parse_loop_no_f (args : List String) (st : Args) :
    after_last_f args = none → st.block_input = 0 →
      ∃ st2, parse_loop args st = some st2 ∧ st2.block_input = 0 ∧
        st2.input_filenames = st.input_filenames := by
  induction args, st using parse_loop.induct with
  | case1 st =>
    intro _ h0
    exact ⟨st, rfl, h0, rfl⟩
  | case2 st =>
    intro _ h0
    exact ⟨_, parse_loop_o_last st, h0, rfl⟩
  | case3 st o rest2 ih =>
    intro hf h0
    rw [after_last_f_o] at hf
    rw [parse_loop_o]
    exact ih hf h0
  | case4 rest st ho ih =>
    intro hf _
    rw [after_last_f_f] at hf
    exact absurd hf (by simp)
  | case5 a rest st ho hf hb1 hb2 ih =>
    intro _ h0
    exact absurd h0 hb1
  | case6 a rest st ho hf hb1 hb2 =>
    intro _ h0
    exact absurd h0 hb1
  | case7 a rest st ho hf hb1 ih =>
    intro hn h0
    rw [after_last_f_word a rest ho hf] at hn
    rw [parse_loop_skip a rest st ho hf h0]
    exact ih hn h0

theorem after_last_f_of_not_mem (args : List String) (h : "-f" ∉ args) :
    after_last_f args = none := by
  induction args using after_last_f.induct with
  | case1 => rfl
  | case2 => rw [after_last_f.eq_def]; simp
  | case3 o rest2 ih =>
    rw [after_last_f_o]
    exact ih fun hm => h (List.mem_cons_of_mem _ (List.mem_cons_of_mem _ hm))
  | case4 rest r hr ho ih => exact absurd (List.mem_cons_self _ _) h
  | case5 rest hr ho ih => exact absurd (List.mem_cons_self _ _) h
  | case6 a rest ho hf ih =>
    rw [after_last_f_word a rest ho hf]
    exact ih fun hm => h (List.mem_cons_of_mem _ hm)

/-- C18: on a command line with at least two arguments on which no `-f` is
recognised as a flag (so on every one that has no `-f`) and whose output
path, given with `-o`, is an `OUT` that can be opened, the parser collects no
input, the loop bound `block_input - 1` is 0, and the run returns 0 having
made the one `fopen` call for the output: `OUT` is an empty file and every
other file is as before. -/
theorem no_f_gives_empty_output (argv : List String) (w : World) (OUT : String)
    (h3 : 3 ≤ argv.length) (hf : after_last_f (argv.drop 1) = none)
    (hout : output_arg (argv.drop 1) none = some OUT) (hw : w.writable OUT = true) :
    (∃ st, parse_args argv = some st ∧ st.inputs = [] ∧ st.block_input - 1 = 0 ∧
        st.output_filename = some OUT) ∧
      ∃ w2, main argv w = some (0, w2) ∧ w2.files OUT = some [] ∧
        (∀ q, q ≠ OUT → w2.files q = w.files q) ∧
        w2.trace = w.trace ++ [Event.open_write (some OUT)] := by
  obtain ⟨st, hp, hb, _⟩ := parse_loop_no_f (argv.drop 1) Args.init hf rfl
  have ho : st.output_filename = some OUT := by
    rw [parse_loop_output _ _ st hp]
    exact hout
  have hi : st.inputs = [] := by simp [Args.inputs, hb]
  refine ⟨⟨st, hp, hi, by rw [hb], ho⟩, opened w OUT, ?_, by simp [opened],
    fun q hq => files_opened w OUT q hq, rfl⟩
  rw [main_enters_loop argv w st OUT (by omega) hp ho hw, hi, main_loop_done,
    after_all_nil _ _ (by simp [opened])]

theorem no_f_gives_empty_output_witness :
    3 ≤ ["xtcat", "a", "-o", "b", "x"].length ∧ after_last_f ["a", "-o", "b", "x"] = none ∧
      output_arg ["a", "-o", "b", "x"] none = some "b" ∧
      (∃ st, parse_args ["xtcat", "a", "-o", "b", "x"] = some st ∧ st.inputs = [] ∧
        st.block_input - 1 = 0 ∧ st.output_filename = some "b") ∧
      ∃ w2, main ["xtcat", "a", "-o", "b", "x"] demo_world = some (0, w2) ∧
        w2.files "b" = some [] ∧ (∀ q, q ≠ "b" → w2.files q = demo_world.files q) ∧
        w2.trace = demo_world.trace ++ [Event.open_write (some "b")] :=
  ⟨by decide, by decide, by decide,
    no_f_gives_empty_output ["xtcat", "a", "-o", "b", "x"] demo_world "b" (by decide)
      (after_last_f_of_not_mem _ (by decide)) (by decide) (by decide)⟩

/-- While it is collecting, a parser that has a result holds at its end the
paths the scan describes. -/
theorem parse_loop_collecting_of_some (args : List String) (st : Args) :
    ∀ (acc : List String) (st2 : Args), st.Collecting acc → parse_loop args st = some st2 →
      st2.Collecting (match after_last_f args with
        | some r => plain_args r
        | none => acc ++ plain_args args) := by
  induction args, st using parse_loop.induct with
  | case1 st =>
    intro acc st2 hc h
    simp only [parse_loop, Option.some.injEq] at h
    subst h
    simpa [after_last_f, plain_args] using hc
  | case2 st =>
    intro acc st2 hc h
    rw [parse_loop_o_last, Option.some.injEq] at h
    subst h
    simpa [after_last_f, plain_args] using hc
  | case3 st o rest2 ih =>
    intro acc st2 hc h
    rw [parse_loop_o] at h
    rw [after_last_f_o, plain_args_o]
    exact ih acc st2 hc h
  | case4 rest st ho ih =>
    intro acc st2 hc h
    rw [parse_loop_f] at h
    have hc0 : Args.Collecting { st with block_input := 1 } [] :=
      ⟨hc.1, rfl, by simp, by simp⟩
    have h2 := ih [] st2 hc0 h
    rw [after_last_f_f]
    cases hr : after_last_f rest with
    | some r => simpa [hr] using h2
    | none => simpa [hr] using h2
  | case5 a rest st ho hf hb1 hb2 ih =>
    intro acc st2 hc h
    rw [parse_loop_store a rest st ho hf hb1 hb2] at h
    have hlen : acc.length < 100 := by
      have := hc.2.1
      omega
    have h2 := ih (acc ++ [a]) st2 (collecting_push hc a hlen) h
    rw [after_last_f_word a rest ho hf, plain_args_word a rest ho hf]
    cases hr : after_last_f rest with
    | some r => simpa [hr] using h2
    | none => simpa [hr] using h2
  | case6 a rest st ho hf hb1 hb2 =>
    intro acc st2 _ h
    rw [parse_loop.eq_def] at h
    simp [ho, hf, hb1, hb2] at h
  | case7 a rest st ho hf hb1 ih =>
    intro acc st2 hc _
    exact absurd (by rw [hc.2.1]; omega) hb1

/-- From its start a parser that has a result is idle at its end when no
`-f` was recognised, and otherwise holds the paths behind the last one. -/
theorem parse_loop_idle_of_some (args : List String) (st : Args) :
    ∀ st2 : Args, st.block_input = 0 → st.input_filenames.length = 100 →
      parse_loop args st = some st2 →
      match after_last_f args with
      | some r => st2.Collecting (plain_args r)
      | none => st2.block_input = 0 := by
  induction args, st using parse_loop.induct with
  | case1 st =>
    intro st2 h0 _ h
    simp only [parse_loop, Option.some.injEq] at h
    subst h
    simpa [after_last_f] using h0
  | case2 st =>
    intro st2 h0 _ h
    rw [parse_loop_o_last, Option.some.injEq] at h
    subst h
    simpa [after_last_f] using h0
  | case3 st o rest2 ih =>
    intro st2 h0 hl h
    rw [parse_loop_o] at h
    rw [after_last_f_o]
    exact ih st2 h0 hl h
  | case4 rest st ho ih =>
    intro st2 _ hl h
    rw [parse_loop_f] at h
    have hc0 : Args.Collecting { st with block_input := 1 } [] :=
      ⟨hl, rfl, by simp, by simp⟩
    have h2 := parse_loop_collecting_of_some rest _ [] st2 hc0 h
    rw [after_last_f_f]
    cases hr : after_last_f rest with
    | some r => simpa [hr] using h2
    | none => simpa [hr] using h2
  | case5 a rest st ho hf hb1 hb2 ih =>
    intro st2 h0 _ _
    exact absurd h0 hb1
  | case6 a rest st ho hf hb1 hb2 =>
    intro st2 h0 _ _
    exact absurd h0 hb1
  | case7 a rest st ho hf hb1 ih =>
    intro st2 h0 hl h
    rw [parse_loop_skip a rest st ho hf h0] at h
    rw [after_last_f_word a rest ho hf]
    exact ih st2 h0 hl h

/-- Whenever the parser has a result, the paths it collected are the ones
behind the last recognised `-f`, at most 100, and `block_input - 1` is their
number. -/
theorem parse_args_of_some (argv : List String) (st : Args) (h : parse_args argv = some st) :
    st.inputs = (inputs_after_last_f (argv.drop 1)).map some ∧
      st.inputs.length ≤ 100 ∧ st.inputs.length = st.block_input - 1 := by
  have h2 := parse_loop_idle_of_some (argv.drop 1) Args.init st init_idle.1 init_idle.2 h
  unfold inputs_after_last_f
  cases hr : after_last_f (argv.drop 1) with
  | some r =>
    rw [hr] at h2
    simp only [] at h2
    refine ⟨collecting_inputs h2, ?_, ?_⟩
    · rw [collecting_inputs h2, List.length_map]
      exact h2.2.2.1
    · rw [collecting_inputs h2, List.length_map, h2.2.1]
      rfl
  | none =>
    rw [hr] at h2
    simp only [] at h2
    simp [Args.inputs, h2]

theorem inputs_after_f_block (ins : List String) (h : ∀ a ∈ ins, a ≠ "-f" ∧ a ≠ "-o") :
    plain_args ("-f" :: ins) = ins ∧ inputs_after_last_f ("-f" :: ins) = ins := by
  have hp : plain_args ins = ins := by
    simpa [plain_args] using plain_args_block ins [] h
  have ha : after_last_f ins = none := by
    simpa [after_last_f] using after_last_f_block ins [] h
  refine ⟨by rw [plain_args_f, hp], ?_⟩
  rw [inputs_after_last_f, after_last_f_f, ha]
  simpa using hp

theorem replicate_plain (n : Nat) : ∀ a ∈ List.replicate n "a", a ≠ "-f" ∧ a ≠ "-o" := by
  intro a ha
  rw [List.eq_of_mem_replicate ha]
  decide

/-- C12, as stated, fails: on `-f` followed by 100 paths the parser collects
100 input paths, more than 99; with 101 paths the last store is at index 100,
outside the array. -/
theorem hundred_inputs_collected :
    (parse_args ("xtcat" :: "-f" :: List.replicate 100 "a")).map (fun st => st.inputs.length)
        = some 100 ∧
      parse_args ("xtcat" :: "-f" :: List.replicate 101 "a") = none := by
  constructor
  · have hb := inputs_after_f_block (List.replicate 100 "a") (replicate_plain 100)
    obtain ⟨st, h1, h2, _⟩ := parse_loop_init ("-f" :: List.replicate 100 "a")
      (by rw [hb.1]; simp)
    have h1b : parse_args ("xtcat" :: "-f" :: List.replicate 100 "a") = some st := h1
    rw [h1b, Option.map_some', h2, hb.2]
    simp
  · cases hp : parse_args ("xtcat" :: "-f" :: List.replicate 101 "a") with
    | none => rfl
    | some st =>
      have h := parse_args_of_some _ st hp
      have hb := inputs_after_f_block (List.replicate 101 "a") (replicate_plain 101)
      have hd : List.drop 1 ("xtcat" :: "-f" :: List.replicate 101 "a")
          = "-f" :: List.replicate 101 "a" := rfl
      rw [hd, hb.2] at h
      have hl := h.2.1
      rw [h.1] at hl
      simp at hl

/-- C12, amended: the array holds 100 paths.  Whenever every store of the
parser stays within the array, the number of input paths it collects, which
is the bound `block_input - 1` of the main loop, is at most 100; and every
store stays within the array on a command line with at most 100 arguments
that are neither a recognised flag nor the value of an `-o`. -/
theorem collects_at_most_capacity (argv : List String) :
    (∀ st, parse_args argv = some st →
        st.inputs.length ≤ 100 ∧ st.inputs.length = st.block_input - 1) ∧
      ((plain_args (argv.drop 1)).length ≤ 100 → ∃ st, parse_args argv = some st) := by
  refine ⟨fun st h => (parse_args_of_some argv st h).2, fun h => ?_⟩
  obtain ⟨st, h1, _⟩ := parse_loop_init (argv.drop 1) h
  exact ⟨st, h1⟩

theorem collects_at_most_capacity_witness :
    (plain_args ["-f", "a", "b", "-o", "out"]).length ≤ 100 ∧
      ∃ st, parse_args ["xtcat", "-f", "a", "b", "-o", "out"] = some st ∧
        st.inputs.length ≤ 100 ∧ st.inputs.length = st.block_input - 1 :=
  ⟨by decide,
    ((collects_at_most_capacity ["xtcat", "-f", "a", "b", "-o", "out"]).2 (by decide)).elim
      fun st h => ⟨st, h, (collects_at_most_capacity ["xtcat", "-f", "a", "b", "-o", "out"]).1 st h⟩⟩

/-! ## Claims about the last `-f` -/

theorem strip_o_pairs_o (o : String) (rest : List String) :
    strip_o_pairs ("-o" :: o :: rest) = strip_o_pairs rest := by
  rw [strip_o_pairs.eq_def]; simp

theorem strip_o_pairs_other (a : String) (rest : List String) (ho : a ≠ "-o") :
    strip_o_pairs (a :: rest) = a :: strip_o_pairs rest := by
  rw [strip_o_pairs.eq_def]; simp [ho]

theorem after_last_occurrence_cons (flag a : String) (rest : List String) :
    after_last_occurrence flag (a :: rest) =
      match after_last_occurrence flag rest with
      | some r => some r
      | none => if a = flag then some rest else none := by
  rw [after_last_occurrence]

/-- Where no `-f` is recognised, removing the `-o` pairs leaves the plain
arguments. -/
theorem strip_eq_plain_of_no_f (args : List String) :
    after_last_f args = none → strip_o_pairs args = plain_args args := by
  induction args using after_last_f.induct with
  | case1 => intro _; rfl
  | case2 =>
    intro _
    rw [strip_o_pairs.eq_def, plain_args.eq_def]; simp
  | case3 o rest2 ih =>
    intro h
    rw [after_last_f_o] at h
    rw [strip_o_pairs_o, plain_args_o]
    exact ih h
  | case4 rest r hr ho ih =>
    intro h
    rw [after_last_f_f] at h
    exact absurd h (by simp)
  | case5 rest hr ho ih =>
    intro h
    rw [after_last_f_f] at h
    exact absurd h (by simp)
  | case6 a rest ho hf ih =>
    intro h
    rw [after_last_f_word a rest ho hf] at h
    rw [strip_o_pairs_other a rest ho, plain_args_word a rest ho hf, ih h]

/-- Locating the last `-f` after the `-o` pairs are removed gives the plain
arguments behind the last recognised `-f`. -/
theorem after_last_occurrence_strip (args : List String) :
    after_last_occurrence "-f" (strip_o_pairs args) = (after_last_f args).map plain_args := by
  induction args using after_last_f.induct with
  | case1 => rfl
  | case2 =>
    rw [strip_o_pairs.eq_def, after_last_f.eq_def]; simp [after_last_occurrence]
  | case3 o rest2 ih =>
    rw [strip_o_pairs_o, after_last_f_o]
    exact ih
  | case4 rest r hr ho ih =>
    rw [strip_o_pairs_other _ _ ho, after_last_occurrence_cons, ih, after_last_f_f, hr]
    rfl
  | case5 rest hr ho ih =>
    rw [strip_o_pairs_other _ _ ho, after_last_occurrence_cons, ih, after_last_f_f, hr,
      strip_eq_plain_of_no_f rest hr]
    rfl
  | case6 a rest ho hf ih =>
    rw [strip_o_pairs_other a rest ho, after_last_occurrence_cons, ih,
      after_last_f_word a rest ho hf]
    cases after_last_f rest with
    | none => simp [hf]
    | some r => rfl

theorem inputs_after_last_f_eq (args : List String) :
    inputs_after_last_f args = (after_last_occurrence "-f" (strip_o_pairs args)).getD [] := by
  rw [after_last_occurrence_strip, inputs_after_last_f]
  cases after_last_f args <;> rfl

/-- C17: whenever the parser's stores stay within the array, as they do with
at most 100 paths, the input list it produces is the sequence of arguments
located after the last occurrence of `-f`, every `-o` and the argument
immediately following it being removed (in the scan from the left, so that
the value of an `-o` is neither a flag nor a path); without an `-f` the list
is empty. -/
theorem inputs_follow_last_f (argv : List String) :
    (∀ st, parse_args argv = some st →
        st.inputs =
          ((after_last_occurrence "-f" (strip_o_pairs (argv.drop 1))).getD []).map some) ∧
      ((plain_args (argv.drop 1)).length ≤ 100 → ∃ st, parse_args argv = some st) := by
  refine ⟨fun st h => ?_, fun h => ?_⟩
  · rw [← inputs_after_last_f_eq]
    exact (parse_args_of_some argv st h).1
  · obtain ⟨st, h1, _⟩ := parse_loop_init (argv.drop 1) h
    exact ⟨st, h1⟩

theorem inputs_follow_last_f_witness :
    (plain_args ["-f", "x", "y", "-o", "out", "-f", "a", "-o", "o2", "b"]).length ≤ 100 ∧
      (after_last_occurrence "-f"
        (strip_o_pairs ["-f", "x", "y", "-o", "out", "-f", "a", "-o", "o2", "b"])).getD []
        = ["a", "b"] ∧
      ∃ st, parse_args ["xtcat", "-f", "x", "y", "-o", "out", "-f", "a", "-o", "o2", "b"]
          = some st ∧
        st.inputs = [some "a", some "b"] :=
  ⟨by decide, by decide,
    ((inputs_follow_last_f
        ["xtcat", "-f", "x", "y", "-o", "out", "-f", "a", "-o", "o2", "b"]).2 (by decide)).elim
      fun st h => ⟨st, h,
        (inputs_follow_last_f
          ["xtcat", "-f", "x", "y", "-o", "out", "-f", "a", "-o", "o2", "b"]).1 st h⟩⟩

end Xtcat
